import Mathlib

/-!
# tinyVcfReader: a shallow embedding of `src/readVcf.cpp`

The file embeds the two functions of `readVcf.cpp`, `tokenizeLine` and `readVcf`,
and proves properties of them.

Modelling decisions.

* Text is `List Char` (`Str`).  A character stands for the byte with the same code.
  `char` is signed, as on x86-64: in arithmetic a character counts for `charVal c`, the
  signed 8-bit value of its code (a byte of 0x80 or more is negative), and `c - '0'` is
  `charVal c - charVal '0'` over `Int` (the promotion to `int` cannot overflow).
* `gzopen`/`gzgets` belong to zlib.  The model starts after a successful `gzopen`: the
  input of `readVcf` is the sequence of buffer contents that the successive successful
  calls of `gzgets` deliver (one element per iteration of the `while` loop).  A line
  keeps its terminating `'\n'` when the file has it, and a buffer holds fewer than
  `MAX_LINE_LENGTH` characters.  The buffer is NUL-terminated: reading the index just
  past the content gives NUL (`charAt`), and the `std::string` built from the buffer
  stops at the first NUL (`cstr`).
* `int` and `size_t` counters are `Nat`: with buffers shorter than `MAX_LINE_LENGTH`
  no counter of `tokenizeLine` wraps.
* `Rcpp::stop` is `Failure.stop msg`.  An index outside a `std::vector`, or more than one
  past the end of a `std::string`, is undefined behaviour in C++; the model reports it as
  `Failure.outOfBounds` instead of continuing.
* A cell of the returned `IntegerMatrix` is `Cell.na` (R's `NA`) or `Cell.val v`; the
  store of `NumericVector::get_na()` into an integer cell is taken to give `NA`.  The
  `dimnames` are the two lists assigned at lines 82-83.
-/

namespace TinyVcf

/-- Text: a C string or `std::string`, as its list of characters. -/
abbrev Str := List Char

/-- The ways in which a run ends without a matrix. -/
inductive Failure where
  /-- `Rcpp::stop(msg)` -/
  | stop (msg : String)
  /-- an access outside a vector or string (undefined behaviour in the source) -/
  | outOfBounds
  deriving DecidableEq, Repr

deriving instance DecidableEq for Except

/-- The NUL character that terminates a C string. -/
def NUL : Char := Char.ofNat 0

/-! ## tokenizeLine (readVcf.cpp, lines 12-22) -/

/-- Membership in the delimiter set `"\t\n\r"` of `find_first_of`. -/
def isDelim (c : Char) : Bool := c == '\t' || c == '\n' || c == '\r'

/-- Scan of `find_first_of`: `s` is the text from index `i` on. -/
def findFirstOfAux : Str → Nat → Option Nat
  | [], _ => none
  | c :: cs, i => if isDelim c then some i else findFirstOfAux cs (i + 1)

/-- `line.find_first_of("\t\n\r", pos)`; `none` is `string::npos`. -/
def findFirstOf (line : Str) (pos : Nat) : Option Nat :=
  findFirstOfAux (line.drop pos) pos

/-- `line.substr(pos, n)`. -/
def substr (line : Str) (pos n : Nat) : Str := (line.drop pos).take n

/-- The `while` loop of `tokenizeLine` followed by the final `if`; every iteration moves
`pos` past one delimiter, so `line.length + 1` iterations always suffice (`fuel`). -/
def tokenizeLoop (line : Str) : Nat → Nat → List Str → List Str
  | 0, _, toks => toks
  | fuel + 1, pos, toks =>
    match findFirstOf line pos with
    | some nextpos =>
      tokenizeLoop line fuel (nextpos + 1) (toks ++ [substr line pos (nextpos - pos)])
    | none =>
      if pos < line.length then toks ++ [line.drop pos] else toks

/-- `tokenizeLine(line)`. -/
def tokenizeLine (line : Str) : List Str :=
  tokenizeLoop line (line.length + 1) 0 []

/-! ## readVcf (readVcf.cpp, lines 42-85) -/

/-- `line[i]` on the NUL-terminated buffer filled by `gzgets`. -/
def charAt (buf : Str) (i : Nat) : Char := buf.getD i NUL

/-- The `std::string` that the call `tokenizeLine(line)` builds from the buffer:
the characters before the first NUL. -/
def cstr (buf : Str) : Str := buf.takeWhile (fun c => c != NUL)

/-- The three kinds of line told apart at lines 53-54 and 59. -/
inductive LineClass where
  | meta
  | header
  | data
  deriving DecidableEq, Repr

/-- `line[0] == '#'`, then `line[1] == '#'`. -/
def classify (line : Str) : LineClass :=
  if charAt line 0 = '#' then
    if charAt line 1 = '#' then .meta else .header
  else .data

/-- `toks[i]` on a `std::vector`: undefined outside the vector. -/
def tokAt (toks : List Str) (i : Nat) : Except Failure Str :=
  match toks[i]? with
  | some t => .ok t
  | none => .error .outOfBounds

/-- `t[i]` on a `std::string`: the character, NUL at `i = size()`, undefined beyond. -/
def strAt (t : Str) (i : Nat) : Except Failure Char :=
  if i ≤ t.length then .ok (t.getD i NUL) else .error .outOfBounds

/-- The value of a `char` in integer arithmetic: its code read as a signed 8-bit number. -/
def charVal (c : Char) : Int := (((c.toNat + 128) % 256 : Nat) : Int) - 128

/-- Lines 65-67: the code pushed on `genotypes` for one token. -/
def decodeGenotype (t : Str) : Except Failure Int :=
  match strAt t 0 with
  | .error e => .error e
  | .ok c0 =>
    if c0 = '.' then .ok (-9)
    else
      match strAt t 2 with
      | .error e => .error e
      | .ok c2 => .ok ((charVal c0 - charVal '0') + (charVal c2 - charVal '0'))

/-- The loop of lines 64-68 over the tokens from position 9 on (argument: those tokens). -/
def decodeAll : List Str → Except Failure (List Int)
  | [] => .ok []
  | t :: ts =>
    match decodeGenotype t with
    | .error e => .error e
    | .ok g =>
      match decodeAll ts with
      | .error e => .error e
      | .ok gs => .ok (g :: gs)

/-- Line 63: `toks[0] + ":" + toks[1] + ":" + toks[3] + ":" + toks[4]`. -/
def markerID (toks : List Str) : Except Failure Str :=
  match tokAt toks 0, tokAt toks 1, tokAt toks 3, tokAt toks 4 with
  | .ok t0, .ok t1, .ok t3, .ok t4 => .ok (t0 ++ [':'] ++ t1 ++ [':'] ++ t3 ++ [':'] ++ t4)
  | _, _, _, _ => .error .outOfBounds

/-- The variables that live across the read loop (lines 48-51). -/
structure State where
  sampleIDs : List Str
  markerIDs : List Str
  genotypes : List Int
  nvar : Nat
  deriving DecidableEq, Repr

/-- The state before the first line. -/
def State.init : State := ⟨[], [], [], 0⟩

/-- The message of the `stop` at line 62. -/
def mismatchMessage : String := "The number of lines do not match"

/-- One iteration of the `while` loop (lines 53-70) on the buffer `line`. -/
def step (st : State) (line : Str) : Except Failure State :=
  match classify line with
  | .meta => .ok st
  | .header =>
    let toks := tokenizeLine (cstr line)
    .ok { st with sampleIDs := st.sampleIDs ++ toks.drop 9 }
  | .data =>
    let toks := tokenizeLine (cstr line)
    if st.sampleIDs.length + 9 ≠ toks.length then .error (.stop mismatchMessage)
    else
      match markerID toks with
      | .error e => .error e
      | .ok id =>
        match decodeAll (toks.drop 9) with
        | .error e => .error e
        | .ok gs =>
          .ok { st with markerIDs := st.markerIDs ++ [id],
                        genotypes := st.genotypes ++ gs,
                        nvar := st.nvar + 1 }

/-- The `while` loop (lines 52-71) over the successive buffers. -/
def readLoop : State → List Str → Except Failure State
  | st, [] => .ok st
  | st, line :: rest =>
    match step st line with
    | .error e => .error e
    | .ok st' => readLoop st' rest

/-- A cell of the `IntegerMatrix`: `NA` or an integer. -/
inductive Cell where
  | na
  | val (v : Int)
  deriving DecidableEq, Repr

/-- The returned `IntegerMatrix` with its `dimnames`; `cells` lists the rows. -/
structure IntegerMatrix where
  nrow : Nat
  ncol : Nat
  cells : List (List Cell)
  rownames : List Str
  colnames : List Str
  deriving DecidableEq, Repr

/-- The cell `mat(i,j)`, when `i` and `j` are inside the matrix. -/
def IntegerMatrix.cell (m : IntegerMatrix) (i j : Nat) : Option Cell :=
  match m.cells[i]? with
  | some row => row[j]?
  | none => none

/-- Lines 76-79: a negative code becomes `NA`. -/
def cellOfCode (g : Int) : Cell := if g < 0 then .na else .val g

/-- `genotypes[k]` on the `std::vector<int>`. -/
def codeAt (genotypes : List Int) (k : Nat) : Except Failure Int :=
  match genotypes[k]? with
  | some g => .ok g
  | none => .error .outOfBounds

/-- The inner loop of lines 75-80: `n` cells of one row, starting at buffer index `k`. -/
def fillRow (genotypes : List Int) : Nat → Nat → Except Failure (List Cell)
  | _, 0 => .ok []
  | k, n + 1 =>
    match codeAt genotypes k with
    | .error e => .error e
    | .ok g =>
      match fillRow genotypes (k + 1) n with
      | .error e => .error e
      | .ok row => .ok (cellOfCode g :: row)

/-- The outer loop of lines 74-81: `r` rows, the first starting at buffer index `k`
(`k` is incremented once per cell, so row `i` starts at `i * nsamples`). -/
def fillRows (genotypes : List Int) (nsamples : Nat) : Nat → Nat → Except Failure (List (List Cell))
  | _, 0 => .ok []
  | k, r + 1 =>
    match fillRow genotypes k nsamples with
    | .error e => .error e
    | .ok row =>
      match fillRows genotypes nsamples (k + nsamples) r with
      | .error e => .error e
      | .ok rows => .ok (row :: rows)

/-- Lines 72-84: the matrix built from the final state. -/
def assemble (st : State) : Except Failure IntegerMatrix :=
  let nsamples := st.sampleIDs.length
  match fillRows st.genotypes nsamples 0 st.nvar with
  | .error e => .error e
  | .ok cells =>
    .ok { nrow := st.nvar, ncol := nsamples, cells := cells,
          rownames := st.markerIDs, colnames := st.sampleIDs }

/-- `readVcf` on an opened file whose successive `gzgets` buffers are `lines`. -/
def readVcf (lines : List Str) : Except Failure IntegerMatrix :=
  match readLoop State.init lines with
  | .error e => .error e
  | .ok st => assemble st

/-! ## Vocabulary of the statements -/

/-- The token sequence described structurally, for reasoning: a delimiter closes the
current token, and text after the last delimiter is a token when it is not empty. -/
def splitFields : Str → List Str
  | [] => []
  | c :: cs =>
    if isDelim c then [] :: splitFields cs
    else
      match splitFields cs with
      | [] => [[c]]
      | t :: ts => (c :: t) :: ts

/-- The tokens of a buffer, as the read loop obtains them. -/
def lineTokens (line : Str) : List Str := tokenizeLine (cstr line)

/-- The data lines of an input, in file order. -/
def dataLines (lines : List Str) : List Str :=
  lines.filter (fun l => decide (classify l = .data))

/-- The column-header lines of an input, in file order. -/
def headerLines (lines : List Str) : List Str :=
  lines.filter (fun l => decide (classify l = .header))

/-- The sample tokens of one column-header line: its tokens from position 9 on. -/
def sampleTokens (hdr : Str) : List Str := (lineTokens hdr).drop 9

/-- The sample identifiers declared by the column-header lines of an input. -/
def declaredSamples (lines : List Str) : List Str :=
  ((headerLines lines).map sampleTokens).flatten

/-- The label `CHROM:POS:REF:ALT` made of tokens 0, 1, 3 and 4. -/
def variantLabel (toks : List Str) : Str :=
  toks.getD 0 [] ++ [':'] ++ toks.getD 1 [] ++ [':'] ++ toks.getD 3 [] ++ [':'] ++ toks.getD 4 []

/-- A genotype token that starts with `'.'` or has at least three characters. -/
def genotypeOk (t : Str) : Bool := t.head? == some '.' || decide (3 ≤ t.length)

/-- A data line of an input with `n` samples: `9 + n` tokens, genotype tokens decodable. -/
def validDataLine (n : Nat) (l : Str) : Bool :=
  decide (classify l = .data) && decide ((lineTokens l).length = 9 + n) &&
    ((lineTokens l).drop 9).all genotypeOk

/-- What may follow the column-header line: meta lines and valid data lines. -/
def wellFormedRest (n : Nat) (ls : List Str) : Bool :=
  ls.all (fun l => decide (classify l = .meta) || validDataLine n l)

/-- Well-formed input with `n` samples: meta lines, then exactly one column-header line
with `n` sample tokens, then meta lines and valid data lines. -/
def wellFormed (n : Nat) : List Str → Bool
  | [] => false
  | l :: ls =>
    match classify l with
    | .meta => wellFormed n ls
    | .header => decide ((sampleTokens l).length = n) && wellFormedRest n ls
    | .data => false

/-- The sum `(t[0] - '0') + (t[2] - '0')` of a genotype token, on signed `char` values. -/
def alleleSum (t : Str) : Int :=
  (charVal (t.getD 0 NUL) - charVal '0') + (charVal (t.getD 2 NUL) - charVal '0')

/-- The decoding as the specification words it: missing when the token starts with `'.'`,
otherwise the sum of the two allele characters. -/
def statedCell (t : Str) : Cell :=
  if t.head? = some '.' then .na else .val (alleleSum t)

/-- The decoding with the sign test of the assembly step: missing when the token starts
with `'.'` or the sum is negative, otherwise the sum. -/
def decodedCell (t : Str) : Cell :=
  if t.head? = some '.' then .na else if alleleSum t < 0 then .na else .val (alleleSum t)

/-- The cell that the two steps of the source give for one genotype token:
`decodeGenotype` (lines 65-67) followed by `cellOfCode` (lines 76-79). -/
def genotypeCell (t : Str) : Except Failure Cell :=
  match decodeGenotype t with
  | .error e => .error e
  | .ok g => .ok (cellOfCode g)

/-- The codes that the loop of lines 64-68 pushes for one data line (empty when the
loop does not complete). -/
def lineCodes (d : Str) : List Int :=
  match decodeAll ((lineTokens d).drop 9) with
  | .ok gs => gs
  | .error _ => []

/-- The indices of the delimiter characters of a text whose first character has index
`off`, in increasing order. -/
def delimIdx : Str → Nat → List Nat
  | [], _ => []
  | c :: cs, off => if isDelim c then off :: delimIdx cs (off + 1) else delimIdx cs (off + 1)

/-- The positions of the delimiter characters of a line. -/
def delimPositions (line : Str) : List Nat := delimIdx line 0

/-- Where field `k` of a line begins: at 0, or right after delimiter `k - 1`. -/
def fieldStart (line : Str) (k : Nat) : Nat :=
  if k = 0 then 0 else (delimPositions line).getD (k - 1) 0 + 1

/-- Where field `k` begins when the fields start at `start` and the delimiters are at
`ds`: at `start`, or right after delimiter `k - 1`. -/
def startAfter (start : Nat) (ds : List Nat) (k : Nat) : Nat :=
  if k = 0 then start else ds.getD (k - 1) 0 + 1

/-- The fields cut out of a line from `start` on at the delimiter positions `ds`:
one field before each delimiter, and the text after the last one when it is not empty. -/
def cutAt (line : Str) : Nat → List Nat → List Str
  | start, [] => if start < line.length then [line.drop start] else []
  | start, p :: ps => substr line start (p - start) :: cutAt line (p + 1) ps

/-- A line that is not empty and whose last character is not a delimiter. -/
def endsOpen (line : Str) : Bool :=
  match line.getLast? with
  | some c => !isDelim c
  | none => false

/-- A genotype token on which lines 65-67 stay inside the string: it starts with `'.'`
or has at least two characters (index 2 is then at most the terminator). -/
def decodable (t : Str) : Bool := t.head? == some '.' || decide (2 ≤ t.length)

/-- No column-header line comes after a data line. -/
def headersFirst : List Str → Bool
  | [] => true
  | l :: ls => (decide (classify l ≠ .data) || (headerLines ls).isEmpty) && headersFirst ls

/-- A buffer with its terminator `'\n'` replaced by `'\r'`, `'\n'`. -/
def toCRLF (l : Str) : Str :=
  if l.getLast? = some '\n' then l.dropLast ++ ['\r', '\n'] else l

/-! ## Concrete inputs -/

/-- The column-header line of the scenario of section 8, with samples `S1` and `S2`. -/
def scenarioHeader : Str :=
  "#CHROM\tPOS\tID\tREF\tALT\tQUAL\tFILTER\tINFO\tFORMAT\tS1\tS2\n".toList

/-- The data line of the scenario of section 8. -/
def scenarioData : Str := "20\t100\t.\tA\tT\t.\t.\t.\tGT\t0/1\t./.\n".toList

/-- The scenario of section 8: the header line followed by one data line. -/
def scenarioInput : List Str := [scenarioHeader, scenarioData]

/-- The matrix of the scenario: one row `20:100:A:T`, columns `S1`, `S2`, cells 1 and NA. -/
def scenarioMatrix : IntegerMatrix :=
  { nrow := 1, ncol := 2, cells := [[.val 1, .na]],
    rownames := ["20:100:A:T".toList], colnames := ["S1".toList, "S2".toList] }

/-- A column-header line with the one sample `S1`. -/
def oneSampleHeader : Str :=
  "#CHROM\tPOS\tID\tREF\tALT\tQUAL\tFILTER\tINFO\tFORMAT\tS1\n".toList

/-- A data line whose only genotype token is `0/.`. -/
def halfMissingData : Str := "20\t100\t.\tA\tT\t.\t.\t.\tGT\t0/.\n".toList

/-- A well-formed input whose only genotype token is `0/.`. -/
def halfMissingInput : List Str := [oneSampleHeader, halfMissingData]

/-- A data line whose only genotype token is `2/.`. -/
def thirdDotData : Str := "20\t100\t.\tA\tT\t.\t.\t.\tGT\t2/.\n".toList

/-- An input whose only genotype token is `2/.`. -/
def thirdDotInput : List Str := [oneSampleHeader, thirdDotData]

/-- A matrix of one row `20:100:A:T` and one column `S1` holding the cell `c`. -/
def singleCellMatrix (c : Cell) : IntegerMatrix :=
  { nrow := 1, ncol := 1, cells := [[c]],
    rownames := ["20:100:A:T".toList], colnames := ["S1".toList] }

/-- A data line for two samples that lacks its last genotype field (10 tokens). -/
def shortData : Str := "20\t200\t.\tC\tG\t.\t.\t.\tGT\t1/1\n".toList

/-- The scenario with its data line given twice. -/
def repeatedInput : List Str := [scenarioHeader, scenarioData, scenarioData]

/-- The matrix of `repeatedInput`: two rows carrying the same label. -/
def repeatedMatrix : IntegerMatrix :=
  { nrow := 2, ncol := 2, cells := [[.val 1, .na], [.val 1, .na]],
    rownames := ["20:100:A:T".toList, "20:100:A:T".toList],
    colnames := ["S1".toList, "S2".toList] }

/-- A column-header line that declares no sample. -/
def bareHeader : Str := "#CHROM\tPOS\tID\tREF\tALT\tQUAL\tFILTER\tINFO\tFORMAT\n".toList

/-- An input without samples: the bare header and two data lines of nine tokens. -/
def noSampleInput : List Str :=
  [bareHeader, "20\t100\t.\tA\tT\t.\t.\t.\tGT\n".toList,
    "20\t200\t.\tC\tG\t.\t.\t.\tGT\n".toList]

/-- The matrix of `noSampleInput`: two labelled rows, no column. -/
def noSampleMatrix : IntegerMatrix :=
  { nrow := 2, ncol := 0, cells := [[], []],
    rownames := ["20:100:A:T".toList, "20:200:C:G".toList], colnames := [] }

/-- A data line for two samples with the genotype tokens `1|0` and `1/1`. -/
def biallelicData : Str := "20\t300\t.\tG\tC\t.\t.\t.\tGT\t1|0\t1/1\n".toList

/-- The matrix of the input made of `scenarioHeader` and `biallelicData`. -/
def biallelicMatrix : IntegerMatrix :=
  { nrow := 1, ncol := 2, cells := [[.val 1, .val 2]],
    rownames := ["20:300:G:C".toList], colnames := ["S1".toList, "S2".toList] }

/-- The scenario header given twice, without data line. -/
def doubleHeaderInput : List Str := [scenarioHeader, scenarioHeader]

/-- The matrix of `doubleHeaderInput`: no row, four columns. -/
def doubleHeaderMatrix : IntegerMatrix :=
  { nrow := 0, ncol := 4, cells := [], rownames := [],
    colnames := ["S1".toList, "S2".toList, "S1".toList, "S2".toList] }

/-- A data line whose only genotype token is the two-character `0/`. -/
def twoCharData : Str := "20\t100\t.\tA\tT\t.\t.\t.\tGT\t0/\n".toList

/-- An input whose only genotype token is `0/`. -/
def twoCharInput : List Str := [oneSampleHeader, twoCharData]

/-- The matrix of the scenario header alone: no row, two columns. -/
def headerOnlyMatrix : IntegerMatrix :=
  { nrow := 0, ncol := 2, cells := [], rownames := [],
    colnames := ["S1".toList, "S2".toList] }

/-- The matrix of the scenario header alone with a `'\r'`, `'\n'` terminator: a third
column labelled by the empty string. -/
def crlfHeaderMatrix : IntegerMatrix :=
  { nrow := 0, ncol := 3, cells := [], rownames := [],
    colnames := ["S1".toList, "S2".toList, []] }

/-- A meta line. -/
def metaLine : Str := "##fileformat=VCFv4.2\n".toList

/-! ## The tokenizer loop and its structural description -/

theorem findFirstOfAux_none (s : Str) (i : Nat) (h : findFirstOfAux s i = none) :
    (∀ c ∈ s, isDelim c = false) ∧ splitFields s = if s = [] then [] else [s] := by
  induction s generalizing i with
  | nil => simp [splitFields]
  | cons c cs ih =>
    unfold findFirstOfAux at h
    by_cases hc : isDelim c = true
    · simp [hc] at h
    · simp only [hc] at h
      have hc' : isDelim c = false := by simpa using hc
      obtain ⟨h1, h2⟩ := ih (i + 1) (by simpa using h)
      refine ⟨?_, ?_⟩
      · intro x hx
        rcases List.mem_cons.1 hx with rfl | hx
        · exact hc'
        · exact h1 x hx
      · simp only [splitFields, hc', h2]
        cases cs <;> simp

theorem findFirstOfAux_some (s : Str) (i np : Nat) (h : findFirstOfAux s i = some np) :
    i ≤ np ∧ np < i + s.length ∧ (∀ c ∈ s.take (np - i), isDelim c = false) ∧
      (∃ d, s[np - i]? = some d ∧ isDelim d = true) ∧
      splitFields s = s.take (np - i) :: splitFields (s.drop (np - i + 1)) := by
  induction s generalizing i with
  | nil => simp [findFirstOfAux] at h
  | cons c cs ih =>
    unfold findFirstOfAux at h
    by_cases hc : isDelim c = true
    · simp only [hc, if_true, Option.some.injEq] at h
      subst h
      simp [splitFields, hc]
    · have hc' : isDelim c = false := by simpa using hc
      simp only [hc'] at h
      obtain ⟨h1, h2, h3, ⟨d, h4, h5⟩, h6⟩ := ih (i + 1) (by simpa using h)
      have e : np - i = (np - (i + 1)) + 1 := by omega
      refine ⟨by omega, by simp only [List.length_cons]; omega, ?_, ⟨d, ?_, h5⟩, ?_⟩
      · rw [e, List.take_succ_cons]
        intro x hx
        rcases List.mem_cons.1 hx with rfl | hx
        · exact hc'
        · exact h3 x hx
      · rw [e]; simpa using h4
      · rw [e]
        simp only [splitFields, hc', h6, List.take_succ_cons, List.drop_succ_cons]
        simp

theorem tokenizeLoop_eq (line : Str) (fuel pos : Nat) (toks : List Str)
    (h : line.length < pos + fuel) :
    tokenizeLoop line fuel pos toks = toks ++ splitFields (line.drop pos) := by
  induction fuel generalizing pos toks with
  | zero =>
    have : line.drop pos = [] := List.drop_eq_nil_of_le (by omega)
    simp [tokenizeLoop, this, splitFields]
  | succ fuel ih =>
    unfold tokenizeLoop
    cases hf : findFirstOf line pos with
    | none =>
      obtain ⟨_, h2⟩ := findFirstOfAux_none _ _ hf
      simp only [h2]
      by_cases hp : pos < line.length
      · have : line.drop pos ≠ [] := by
          intro hnil
          have := List.drop_eq_nil_iff.1 hnil
          omega
        simp [hp, this]
      · have : line.drop pos = [] := List.drop_eq_nil_of_le (by omega)
        simp [hp, this]
    | some np =>
      obtain ⟨h1, h2, _, _, h5⟩ := findFirstOfAux_some _ _ _ hf
      simp only
      rw [ih (np + 1) _ (by omega), h5, substr, List.drop_drop]
      have e : pos + (np - pos + 1) = np + 1 := by omega
      simp [e]

/-- The loop of `tokenizeLine` ends within its fuel, and its result is `splitFields`. -/
theorem tokenizeLine_eq (line : Str) : tokenizeLine line = splitFields line := by
  simp [tokenizeLine, tokenizeLoop_eq]

/-- More iterations than `line.length + 1` change nothing: the loop has ended by then. -/
theorem tokenizeLoop_fuel (line : Str) (fuel : Nat) (h : line.length < fuel) :
    tokenizeLoop line fuel 0 [] = tokenizeLine line := by
  rw [tokenizeLine_eq, tokenizeLoop_eq line fuel 0 [] (by omega)]
  simp

/-! ## The genotype decoder -/

theorem strAt_zero (t : Str) : strAt t 0 = .ok (t.getD 0 NUL) := by
  simp [strAt]

theorem strAt_two (t : Str) (h : 2 ≤ t.length) : strAt t 2 = .ok (t.getD 2 NUL) := by
  simp [strAt, h]

theorem head?_eq_dot_iff (t : Str) : t.head? = some '.' ↔ t.getD 0 NUL = '.' := by
  cases t with
  | nil => simp [NUL]
  | cons c cs => simp

theorem decodeGenotype_dot (t : Str) (h : t.getD 0 NUL = '.') : decodeGenotype t = .ok (-9) := by
  unfold decodeGenotype
  rw [strAt_zero]
  simp only [h, if_true]

theorem decodeGenotype_sum (t : Str) (h : t.getD 0 NUL ≠ '.') (h2 : 2 ≤ t.length) :
    decodeGenotype t = .ok (alleleSum t) := by
  unfold decodeGenotype
  rw [strAt_zero, strAt_two t h2]
  simp only [h, if_false, alleleSum]

theorem genotypeCell_dot (t : Str) (h : t.getD 0 NUL = '.') : genotypeCell t = .ok .na := by
  simp [genotypeCell, decodeGenotype_dot t h, cellOfCode]

theorem genotypeCell_sum (t : Str) (h : t.getD 0 NUL ≠ '.') (h2 : 2 ≤ t.length) :
    genotypeCell t = .ok (if alleleSum t < 0 then .na else .val (alleleSum t)) := by
  simp [genotypeCell, decodeGenotype_sum t h h2, cellOfCode]

/-- On a token that starts with `'.'` or has two characters or more, the two steps of the
source give `decodedCell`. -/
theorem genotypeCell_eq_decodedCell (t : Str) (h : t.getD 0 NUL = '.' ∨ 2 ≤ t.length) :
    genotypeCell t = .ok (decodedCell t) := by
  by_cases hd : t.getD 0 NUL = '.'
  · rw [genotypeCell_dot t hd, decodedCell, if_pos ((head?_eq_dot_iff t).2 hd)]
  · rcases h with h | h
    · exact absurd h hd
    · rw [genotypeCell_sum t hd h, decodedCell, if_neg (fun hh => hd ((head?_eq_dot_iff t).1 hh))]

theorem isDigit_toNat (a : Char) (h : a.isDigit = true) : 48 ≤ a.toNat ∧ a.toNat ≤ 57 := by
  simp only [Char.isDigit, Bool.and_eq_true, decide_eq_true_eq] at h
  obtain ⟨h1, h2⟩ := h
  exact ⟨h1, h2⟩

theorem charVal_of_lt (c : Char) (h : c.toNat < 128) : charVal c = (c.toNat : Int) := by
  unfold charVal
  omega

theorem charVal_bounds (c : Char) : -128 ≤ charVal c ∧ charVal c ≤ 127 := by
  unfold charVal
  omega

theorem charVal_zero : charVal '0' = 48 := by decide

theorem charVal_dot : charVal '.' = 46 := by decide

theorem charVal_NUL : charVal NUL = 0 := by decide

/-- A byte of 0x80 or more is negative: the token of bytes E9, `/`, `0` gives a negative
sum and a missing cell. -/
theorem genotypeCell_high_byte :
    charVal (Char.ofNat 0xE9) = -23 ∧ alleleSum [Char.ofNat 0xE9, '/', '0'] = -71 ∧
    genotypeCell [Char.ofNat 0xE9, '/', '0'] = .ok .na ∧
    decodedCell [Char.ofNat 0xE9, '/', '0'] = .na ∧
    genotypeCell [Char.ofNat 0xE9, '/', '.'] = .ok .na ∧
    decodedCell [Char.ofNat 0xE9, '/', '.'] = .na ∧
    genotypeCell [Char.ofNat 0xE9, '/'] = .ok .na := by
  refine ⟨by decide, by decide, by decide, by decide, by decide, by decide, by decide⟩

/-- C3: the decoder never looks at the middle character. For decimal digits `a`, `b` and
any character `c` the token `a,c,b` gives the cell `value a + value b`; a token whose
first character is `'.'` gives a missing cell whatever follows; `0/0`, `0/1`, `1/1`, `./.`
give 0, 1, 2, missing, and so do `0|0`, `0|1`, `1|1`, `.|.`. -/
theorem decoder_ignores_separator (a b c : Char) (rest : Str)
    (ha : a.isDigit = true) (hb : b.isDigit = true) :
    genotypeCell [a, c, b] = .ok (.val (((a.toNat - '0'.toNat : Nat) : Int) + ((b.toNat - '0'.toNat : Nat) : Int))) ∧
    genotypeCell ('.' :: rest) = .ok .na ∧
    genotypeCell "0/0".toList = .ok (.val 0) ∧ genotypeCell "0/1".toList = .ok (.val 1) ∧
    genotypeCell "1/1".toList = .ok (.val 2) ∧ genotypeCell "./.".toList = .ok .na ∧
    genotypeCell "0|0".toList = .ok (.val 0) ∧ genotypeCell "0|1".toList = .ok (.val 1) ∧
    genotypeCell "1|1".toList = .ok (.val 2) ∧ genotypeCell ".|.".toList = .ok .na := by
  refine ⟨?_, genotypeCell_dot _ (by simp), by decide, by decide, by decide, by decide,
    by decide, by decide, by decide, by decide⟩
  obtain ⟨a1, a2⟩ := isDigit_toNat a ha
  obtain ⟨b1, b2⟩ := isDigit_toNat b hb
  have hne : ([a, c, b] : Str).getD 0 NUL ≠ '.' := by
    simp only [List.getD_cons_zero]
    intro h
    rw [h] at a1
    exact absurd a1 (by decide)
  rw [genotypeCell_sum _ hne (by simp)]
  have h0 : ('0' : Char).toNat = 48 := by decide
  have hs : alleleSum [a, c, b] = ((a.toNat - 48 : Nat) : Int) + ((b.toNat - 48 : Nat) : Int) := by
    simp only [alleleSum, charVal_zero, List.getD_cons_zero, List.getD_cons_succ]
    rw [charVal_of_lt a (by omega), charVal_of_lt b (by omega)]
    omega
  rw [hs, h0]
  have : ¬ (((a.toNat - 48 : Nat) : Int) + ((b.toNat - 48 : Nat) : Int) < 0) := by omega
  simp [this]

/-- C3 at the token `7x2`: digits 7 and 2 around the separator `x` give 9. -/
theorem decoder_ignores_separator_witness :
    ('7' : Char).isDigit = true ∧ ('2' : Char).isDigit = true ∧
    genotypeCell ['7', 'x', '2'] = .ok (.val 9) :=
  ⟨by decide, by decide, (decoder_ignores_separator '7' '2' 'x' [] (by decide) (by decide)).1⟩

/-! ## One line of the read loop -/

theorem markerID_eq (toks : List Str) (h : 5 ≤ toks.length) :
    markerID toks = .ok (variantLabel toks) := by
  match toks, h with
  | t0 :: t1 :: t2 :: t3 :: t4 :: rest, _ => simp [markerID, tokAt, variantLabel]

theorem decodeAll_ok (ts : List Str) (gs : List Int) (h : decodeAll ts = .ok gs) :
    gs.length = ts.length ∧
      ∀ (j : Nat) (t : Str), ts[j]? = some t → ∃ g : Int, gs[j]? = some g ∧ decodeGenotype t = .ok g := by
  induction ts generalizing gs with
  | nil =>
    simp only [decodeAll, Except.ok.injEq] at h
    subst h
    simp
  | cons t ts ih =>
    unfold decodeAll at h
    cases hg : decodeGenotype t with
    | error e => simp [hg] at h
    | ok g =>
      cases hgs : decodeAll ts with
      | error e => simp [hg, hgs] at h
      | ok gs' =>
        simp only [hg, hgs, Except.ok.injEq] at h
        subst h
        obtain ⟨h1, h2⟩ := ih gs' hgs
        refine ⟨by simp [h1], ?_⟩
        intro j u hu
        cases j with
        | zero =>
          simp only [List.getElem?_cons_zero, Option.some.injEq] at hu
          subst hu
          exact ⟨g, by simp, hg⟩
        | succ j =>
          simp only [List.getElem?_cons_succ] at hu
          obtain ⟨g', hg1, hg2⟩ := h2 j u hu
          exact ⟨g', by simpa using hg1, hg2⟩

theorem decodeAll_of_all (ts : List Str)
    (h : ∀ t ∈ ts, ∃ g, decodeGenotype t = .ok g) : ∃ gs, decodeAll ts = .ok gs := by
  induction ts with
  | nil => exact ⟨[], rfl⟩
  | cons t ts ih =>
    obtain ⟨g, hg⟩ := h t (List.mem_cons_self _ _)
    obtain ⟨gs, hgs⟩ := ih (fun u hu => h u (List.mem_cons_of_mem _ hu))
    exact ⟨g :: gs, by simp [decodeAll, hg, hgs]⟩

theorem decodeGenotype_of_ok (t : Str) (h : genotypeOk t = true) :
    ∃ g, decodeGenotype t = .ok g := by
  by_cases hd : t.getD 0 NUL = '.'
  · exact ⟨_, decodeGenotype_dot t hd⟩
  · have h3 : 3 ≤ t.length := by
      simp only [genotypeOk, Bool.or_eq_true, beq_iff_eq, decide_eq_true_eq] at h
      rcases h with h | h
      · exact absurd ((head?_eq_dot_iff t).1 h) hd
      · exact h
    exact ⟨_, decodeGenotype_sum t hd (by omega)⟩

theorem step_meta (st : State) (l : Str) (h : classify l = .meta) : step st l = .ok st := by
  simp [step, h]

theorem step_header (st : State) (l : Str) (h : classify l = .header) :
    step st l = .ok { st with sampleIDs := st.sampleIDs ++ sampleTokens l } := by
  simp [step, h, sampleTokens, lineTokens]

theorem step_data_mismatch (st : State) (l : Str) (h : classify l = .data)
    (hn : (lineTokens l).length ≠ 9 + st.sampleIDs.length) :
    step st l = .error (.stop mismatchMessage) := by
  have : st.sampleIDs.length + 9 ≠ (tokenizeLine (cstr l)).length := by
    intro e
    apply hn
    simp only [lineTokens]
    omega
  simp [step, h, this]

/-- What an accepted data line does to the state. -/
theorem step_data_ok (st st' : State) (l : Str) (h : classify l = .data)
    (hs : step st l = .ok st') :
    (lineTokens l).length = 9 + st.sampleIDs.length ∧
      decodeAll ((lineTokens l).drop 9) = .ok (lineCodes l) ∧
      st' = { st with markerIDs := st.markerIDs ++ [variantLabel (lineTokens l)],
                      genotypes := st.genotypes ++ lineCodes l,
                      nvar := st.nvar + 1 } := by
  simp only [step, h] at hs
  by_cases hn : st.sampleIDs.length + 9 ≠ (tokenizeLine (cstr l)).length
  · simp [hn] at hs
  · simp only [hn, if_false] at hs
    have hlen : (lineTokens l).length = 9 + st.sampleIDs.length := by
      simp only [lineTokens]
      omega
    have hm : markerID (tokenizeLine (cstr l)) = .ok (variantLabel (lineTokens l)) :=
      markerID_eq _ (by simp only [lineTokens] at hlen; omega)
    rw [hm] at hs
    simp only at hs
    cases hd : decodeAll (List.drop 9 (tokenizeLine (cstr l))) with
    | error e => simp [hd] at hs
    | ok gs =>
      have hc : lineCodes l = gs := by simp [lineCodes, lineTokens, hd]
      simp only [hd, Except.ok.injEq] at hs
      refine ⟨hlen, ?_, ?_⟩
      · simp [lineTokens, hd, hc]
      · rw [hc, ← hs]

/-- A data line with the right number of decodable tokens is accepted. -/
theorem step_data_valid (st : State) (l : Str) (h : validDataLine st.sampleIDs.length l = true) :
    ∃ st', step st l = .ok st' := by
  simp only [validDataLine, Bool.and_eq_true, decide_eq_true_eq, List.all_eq_true] at h
  obtain ⟨⟨hc, hlen⟩, hall⟩ := h
  obtain ⟨gs, hgs⟩ := decodeAll_of_all _ (fun t ht => decodeGenotype_of_ok t (hall t ht))
  have hn : ¬ (st.sampleIDs.length + 9 ≠ (tokenizeLine (cstr l)).length) := by
    simp only [lineTokens] at hlen
    omega
  have hm : markerID (tokenizeLine (cstr l)) = .ok (variantLabel (lineTokens l)) :=
    markerID_eq _ (by simp only [lineTokens] at hlen; omega)
  simp only [lineTokens] at hgs
  refine ⟨{ st with markerIDs := st.markerIDs ++ [variantLabel (lineTokens l)],
                     genotypes := st.genotypes ++ gs,
                     nvar := st.nvar + 1 }, ?_⟩
  simp only [step, hc, hn, if_false, hm, hgs]

/-! ## The read loop -/

theorem readLoop_append (st : State) (a b : List Str) :
    readLoop st (a ++ b) =
      match readLoop st a with
      | .error e => .error e
      | .ok st' => readLoop st' b := by
  induction a generalizing st with
  | nil => simp [readLoop]
  | cons l a ih =>
    simp only [List.cons_append, readLoop]
    cases step st l with
    | error e => simp
    | ok st1 => simp [ih]

theorem dataLines_cons (l : Str) (ls : List Str) :
    dataLines (l :: ls) = if classify l = .data then l :: dataLines ls else dataLines ls := by
  by_cases h : classify l = .data <;> simp [dataLines, List.filter_cons, h]

theorem headerLines_cons (l : Str) (ls : List Str) :
    headerLines (l :: ls) =
      if classify l = .header then l :: headerLines ls else headerLines ls := by
  by_cases h : classify l = .header <;> simp [headerLines, List.filter_cons, h]

theorem declaredSamples_cons (l : Str) (ls : List Str) :
    declaredSamples (l :: ls) =
      if classify l = .header then sampleTokens l ++ declaredSamples ls
      else declaredSamples ls := by
  by_cases h : classify l = .header <;> simp [declaredSamples, headerLines_cons, h]

theorem dataLines_append (a b : List Str) : dataLines (a ++ b) = dataLines a ++ dataLines b := by
  simp [dataLines]

theorem declaredSamples_append (a b : List Str) :
    declaredSamples (a ++ b) = declaredSamples a ++ declaredSamples b := by
  simp [declaredSamples, headerLines]

/-- What a completed read loop has accumulated, whatever the input. -/
theorem readLoop_ok (st st' : State) (lines : List Str) (h : readLoop st lines = .ok st') :
    st'.sampleIDs = st.sampleIDs ++ declaredSamples lines ∧
    st'.markerIDs = st.markerIDs ++ (dataLines lines).map (fun d => variantLabel (lineTokens d)) ∧
    st'.nvar = st.nvar + (dataLines lines).length ∧
    st'.genotypes = st.genotypes ++ ((dataLines lines).map lineCodes).flatten ∧
    ∀ d ∈ dataLines lines,
      decodeAll ((lineTokens d).drop 9) = .ok (lineCodes d) ∧
      (lineTokens d).length = 9 + (lineCodes d).length ∧
      st.sampleIDs.length ≤ (lineCodes d).length ∧
      (lineCodes d).length ≤ st'.sampleIDs.length := by
  induction lines generalizing st with
  | nil =>
    simp only [readLoop, Except.ok.injEq] at h
    subst h
    simp [declaredSamples, headerLines, dataLines]
  | cons l ls ih =>
    unfold readLoop at h
    cases hs : step st l with
    | error e => simp [hs] at h
    | ok st1 =>
      simp only [hs] at h
      obtain ⟨i1, i2, i3, i4, i5⟩ := ih st1 h
      cases hc : classify l with
      | meta =>
        have e : st1 = st := by
          rw [step_meta st l hc] at hs
          exact (Except.ok.inj hs).symm
        subst e
        simp only [declaredSamples_cons, dataLines_cons, hc]
        exact ⟨by simpa using i1, by simpa using i2, by simpa using i3, by simpa using i4,
          by simpa using i5⟩
      | header =>
        have e : st1 = { st with sampleIDs := st.sampleIDs ++ sampleTokens l } := by
          rw [step_header st l hc] at hs
          exact (Except.ok.inj hs).symm
        subst e
        simp only [declaredSamples_cons, dataLines_cons, hc]
        refine ⟨by simpa using i1, by simpa using i2, by simpa using i3, by simpa using i4, ?_⟩
        intro d hd
        obtain ⟨j1, j2, j3, j4⟩ := i5 d (by simpa using hd)
        refine ⟨j1, j2, ?_, j4⟩
        simp only [List.length_append] at j3
        omega
      | data =>
        obtain ⟨k1, k2, e⟩ := step_data_ok st st1 l hc hs
        subst e
        obtain ⟨g1, _⟩ := decodeAll_ok _ _ k2
        have hlen : (lineCodes l).length = st.sampleIDs.length := by
          rw [g1, List.length_drop]
          omega
        simp only [declaredSamples_cons, dataLines_cons, hc]
        refine ⟨by simpa using i1, by simpa using i2, ?_, by simpa using i4, ?_⟩
        · simp only [if_true, List.length_cons]
          simp only at i3
          omega
        · intro d hd
          simp only [if_true, List.mem_cons] at hd
          rcases hd with rfl | hd
          · refine ⟨k2, by omega, by omega, ?_⟩
            rw [i1, List.length_append]
            simp only
            omega
          · exact i5 d hd

/-- After a state with `n` samples, meta lines and valid data lines are all accepted. -/
theorem readLoop_wellFormedRest (n : Nat) (st : State) (ls : List Str)
    (hn : st.sampleIDs.length = n) (h : wellFormedRest n ls = true) :
    ∃ st', readLoop st ls = .ok st' := by
  induction ls generalizing st with
  | nil => exact ⟨st, rfl⟩
  | cons l ls ih =>
    simp only [wellFormedRest, List.all_cons, Bool.and_eq_true, Bool.or_eq_true,
      decide_eq_true_eq] at h
    obtain ⟨hl, hrest⟩ := h
    have hrest' : wellFormedRest n ls = true := by simpa [wellFormedRest] using hrest
    rcases hl with hm | hv
    · simp only [readLoop, step_meta st l hm]
      exact ih st hn hrest'
    · obtain ⟨st1, hs⟩ := step_data_valid st l (by rw [hn]; exact hv)
      have hc : classify l = .data := by
        simp only [validDataLine, Bool.and_eq_true, decide_eq_true_eq] at hv
        exact hv.1.1
      obtain ⟨_, _, e⟩ := step_data_ok st st1 l hc hs
      simp only [readLoop, hs]
      exact ih st1 (by rw [e]; exact hn) hrest'

/-- A well-formed input is read to the end. -/
theorem readLoop_wellFormed (n : Nat) (lines : List Str) (h : wellFormed n lines = true) :
    ∃ st', readLoop State.init lines = .ok st' ∧ (declaredSamples lines).length = n ∧
      ∀ d ∈ dataLines lines, (lineTokens d).length = 9 + n := by
  have key : ∀ st : State, st.sampleIDs = [] →
      ∃ st', readLoop st lines = .ok st' ∧ (declaredSamples lines).length = n ∧
        ∀ d ∈ dataLines lines, (lineTokens d).length = 9 + n := by
    induction lines with
    | nil => simp [wellFormed] at h
    | cons l ls ih =>
      intro st hst
      unfold wellFormed at h
      cases hc : classify l with
      | meta =>
        simp only [hc] at h
        obtain ⟨st', h1, h2, h3⟩ := ih h st hst
        refine ⟨st', by simp only [readLoop, step_meta st l hc]; exact h1, ?_, ?_⟩
        · simpa [declaredSamples_cons, hc] using h2
        · simpa [dataLines_cons, hc] using h3
      | header =>
        simp only [hc, Bool.and_eq_true, decide_eq_true_eq] at h
        obtain ⟨hcount, hrest⟩ := h
        obtain ⟨st', h1⟩ := readLoop_wellFormedRest n
          { st with sampleIDs := st.sampleIDs ++ sampleTokens l } ls
          (by simp [hst, hcount]) hrest
        have hall : ∀ x ∈ ls, classify x = .meta ∨ validDataLine n x = true := by
          simpa [wellFormedRest] using hrest
        have hnohdr : headerLines ls = [] := by
          simp only [headerLines, List.filter_eq_nil_iff, decide_eq_true_eq]
          intro x hx hh
          rcases hall x hx with hm | hv
          · rw [hm] at hh; exact absurd hh (by decide)
          · simp only [validDataLine, Bool.and_eq_true, decide_eq_true_eq] at hv
            rw [hv.1.1] at hh; exact absurd hh (by decide)
        refine ⟨st', by simp only [readLoop, step_header st l hc]; exact h1, ?_, ?_⟩
        · have e : declaredSamples ls = [] := by simp [declaredSamples, hnohdr]
          rw [declaredSamples_cons, if_pos hc, e, List.append_nil, hcount]
        · intro d hd
          simp only [dataLines_cons, hc] at hd
          have hd' : d ∈ ls ∧ classify d = .data := by
            simpa [dataLines] using hd
          rcases hall d hd'.1 with hm | hv
          · rw [hm] at hd'; exact absurd hd'.2 (by decide)
          · simp only [validDataLine, Bool.and_eq_true, decide_eq_true_eq] at hv
            exact hv.1.2
      | data => simp [hc] at h
  exact key State.init rfl

/-! ## Matrix assembly -/

theorem codeAt_append (pre post : List Int) (g : Int) :
    codeAt (pre ++ g :: post) pre.length = .ok g := by
  unfold codeAt
  rw [List.getElem?_append_right (le_refl _)]
  simp

theorem fillRow_flat (pre row post : List Int) :
    fillRow (pre ++ row ++ post) pre.length row.length = .ok (row.map cellOfCode) := by
  induction row generalizing pre with
  | nil => simp [fillRow]
  | cons g row ih =>
    have e : pre ++ g :: row ++ post = (pre ++ [g]) ++ row ++ post := by simp
    have h1 : codeAt (pre ++ g :: row ++ post) pre.length = .ok g := by
      have := codeAt_append pre (row ++ post) g
      simpa using this
    have h2 := ih (pre ++ [g])
    rw [List.length_append, List.length_singleton, ← e] at h2
    simp only [List.length_cons, fillRow, h1, h2, List.map_cons]

theorem fillRows_flat (n : Nat) (rows : List (List Int)) (pre : List Int)
    (h : ∀ row ∈ rows, row.length = n) :
    fillRows (pre ++ rows.flatten) n pre.length rows.length =
      .ok (rows.map (fun row => row.map cellOfCode)) := by
  induction rows generalizing pre with
  | nil => simp [fillRows]
  | cons row rows ih =>
    have hn : row.length = n := h row (List.mem_cons_self _ _)
    have h1 : fillRow (pre ++ (row :: rows).flatten) pre.length n = .ok (row.map cellOfCode) := by
      have := fillRow_flat pre row rows.flatten
      rw [hn] at this
      simpa [List.append_assoc] using this
    have h2 := ih (pre ++ row) (fun r hr => h r (List.mem_cons_of_mem _ hr))
    rw [List.length_append, hn, List.append_assoc] at h2
    have e : pre ++ (row :: rows).flatten = pre ++ (row ++ rows.flatten) := by simp
    simp only [List.length_cons, fillRows, h1, List.map_cons]
    rw [e, h2]

theorem fillRow_bound (g : List Int) (k n : Nat) (row : List Cell)
    (h : fillRow g k n = .ok row) : n = 0 ∨ k + n ≤ g.length := by
  induction n generalizing k row with
  | zero => exact Or.inl rfl
  | succ n ih =>
    right
    unfold fillRow at h
    cases hc : codeAt g k with
    | error e => simp [hc] at h
    | ok c =>
      have hk : k < g.length := by
        unfold codeAt at hc
        cases hg : g[k]? with
        | none => simp [hg] at hc
        | some x =>
          by_contra hlt
          have hnone : g[k]? = none := List.getElem?_eq_none (by omega)
          rw [hnone] at hg
          exact absurd hg (by simp)
      cases hr : fillRow g (k + 1) n with
      | error e => simp [hc, hr] at h
      | ok r =>
        rcases ih (k + 1) r hr with h0 | hb
        · omega
        · omega

theorem fillRows_bound (g : List Int) (n k r : Nat) (cells : List (List Cell))
    (h : fillRows g n k r = .ok cells) : r = 0 ∨ n = 0 ∨ k + r * n ≤ g.length := by
  induction r generalizing k cells with
  | zero => exact Or.inl rfl
  | succ r ih =>
    right
    unfold fillRows at h
    cases hrow : fillRow g k n with
    | error e => simp [hrow] at h
    | ok row =>
      cases hrest : fillRows g n (k + n) r with
      | error e => simp [hrow, hrest] at h
      | ok rest =>
        rcases fillRow_bound g k n row hrow with h0 | hb
        · exact Or.inl h0
        · right
          rcases ih (k + n) rest hrest with r0 | n0 | hb2
          · subst r0
            simpa using hb
          · subst n0
            simpa using hb
          · have e : k + (r + 1) * n = k + n + r * n := by ring
            omega

theorem flatten_length_le (N : Nat) (rows : List (List Int))
    (h : ∀ row ∈ rows, row.length ≤ N) : rows.flatten.length ≤ rows.length * N := by
  induction rows with
  | nil => simp
  | cons row rows ih =>
    have h1 := h row (List.mem_cons_self _ _)
    have h2 := ih (fun r hr => h r (List.mem_cons_of_mem _ hr))
    have e : (rows.length + 1) * N = rows.length * N + N := by ring
    simp only [List.flatten_cons, List.length_append, List.length_cons, e]
    omega

/-- Rows no longer than `N` that together fill `rows.length * N` places have length `N`. -/
theorem rows_full (N : Nat) (rows : List (List Int))
    (h : ∀ row ∈ rows, row.length ≤ N) (hfull : rows.length * N ≤ rows.flatten.length) :
    ∀ row ∈ rows, row.length = N := by
  induction rows with
  | nil => simp
  | cons row rows ih =>
    have h1 := h row (List.mem_cons_self _ _)
    have h2 := flatten_length_le N rows (fun r hr => h r (List.mem_cons_of_mem _ hr))
    have e : (rows.length + 1) * N = rows.length * N + N := by ring
    simp only [List.flatten_cons, List.length_append, List.length_cons, e] at hfull
    intro r hr
    rcases List.mem_cons.1 hr with rfl | hr
    · omega
    · exact ih (fun r hr => h r (List.mem_cons_of_mem _ hr)) (by omega) r hr

/-! ## Every returned matrix -/

/-- The content of every matrix that `readVcf` returns, whatever the input. -/
theorem readVcf_ok (lines : List Str) (m : IntegerMatrix) (h : readVcf lines = .ok m) :
    m.nrow = (dataLines lines).length ∧
    m.ncol = (declaredSamples lines).length ∧
    m.rownames = (dataLines lines).map (fun d => variantLabel (lineTokens d)) ∧
    m.colnames = declaredSamples lines ∧
    m.cells = (dataLines lines).map (fun d => (lineCodes d).map cellOfCode) ∧
    ∀ d ∈ dataLines lines,
      decodeAll ((lineTokens d).drop 9) = .ok (lineCodes d) ∧
      (lineTokens d).length = 9 + m.ncol ∧ (lineCodes d).length = m.ncol := by
  unfold readVcf at h
  cases hl : readLoop State.init lines with
  | error e => simp [hl] at h
  | ok st =>
    simp only [hl, assemble] at h
    obtain ⟨i1, i2, i3, i4, i5⟩ := readLoop_ok State.init st lines hl
    simp only [State.init, List.nil_append, Nat.zero_add] at i1 i2 i3 i4
    cases hf : fillRows st.genotypes st.sampleIDs.length 0 st.nvar with
    | error e => simp [hf] at h
    | ok cells =>
      simp only [hf, Except.ok.injEq] at h
      subst h
      simp only
      have hle : ∀ row ∈ (dataLines lines).map lineCodes, row.length ≤ st.sampleIDs.length := by
        intro row hrow
        obtain ⟨d, hd, rfl⟩ := List.mem_map.1 hrow
        exact (i5 d hd).2.2.2
      have hfull : ((dataLines lines).map lineCodes).length * st.sampleIDs.length ≤
          ((dataLines lines).map lineCodes).flatten.length := by
        rw [← i4, List.length_map, ← i3]
        rcases fillRows_bound _ _ _ _ _ hf with r0 | n0 | hb
        · simp [r0]
        · simp [n0]
        · omega
      have hrows := rows_full _ _ hle hfull
      have hcells := fillRows_flat st.sampleIDs.length ((dataLines lines).map lineCodes) [] hrows
      simp only [List.nil_append, List.length_nil, List.length_map] at hcells
      rw [← i4, ← i3, hf] at hcells
      have hc : cells = (dataLines lines).map (fun d => (lineCodes d).map cellOfCode) := by
        have := Except.ok.inj hcells
        rw [this, List.map_map]
        rfl
      refine ⟨i3, by rw [i1], i2, i1, hc, ?_⟩
      intro d hd
      obtain ⟨j1, j2, _, _⟩ := i5 d hd
      have j5 := hrows (lineCodes d) (List.mem_map.2 ⟨d, hd, rfl⟩)
      exact ⟨j1, by omega, j5⟩

/-- In every returned matrix, cell `(i, j)` is what the two steps of the source make of
token `9 + j` of the `i`-th data line. -/
theorem readVcf_cell (lines : List Str) (m : IntegerMatrix) (h : readVcf lines = .ok m)
    (i j : Nat) (d t : Str) (hd : (dataLines lines)[i]? = some d)
    (ht : (lineTokens d)[9 + j]? = some t) :
    ∃ c, genotypeCell t = .ok c ∧ m.cell i j = some c := by
  obtain ⟨_, _, _, _, hc, hall⟩ := readVcf_ok lines m h
  have hmem : d ∈ dataLines lines := List.mem_iff_getElem?.2 ⟨i, hd⟩
  obtain ⟨h1, _, _⟩ := hall d hmem
  obtain ⟨_, h4⟩ := decodeAll_ok _ _ h1
  obtain ⟨g, hg1, hg2⟩ := h4 j t (by rw [List.getElem?_drop]; exact ht)
  refine ⟨cellOfCode g, by simp [genotypeCell, hg2], ?_⟩
  simp [IntegerMatrix.cell, hc, List.getElem?_map, hd, hg1]

theorem genotypeCell_ok (t : Str) (c : Cell) (h : genotypeCell t = .ok c) : c = decodedCell t := by
  by_cases hd : t.getD 0 NUL = '.'
  · rw [genotypeCell_eq_decodedCell t (Or.inl hd)] at h
    exact (Except.ok.inj h).symm
  · have h2 : 2 ≤ t.length := by
      by_contra hlt
      have hs : strAt t 2 = .error .outOfBounds := by
        simp only [strAt]
        rw [if_neg hlt]
      simp only [genotypeCell, decodeGenotype, strAt_zero, hd, if_false, hs] at h
      exact absurd h (by simp)
    rw [genotypeCell_eq_decodedCell t (Or.inr h2)] at h
    exact (Except.ok.inj h).symm

/-- A completed read loop whose data lines all have the token count of the final sample
list is followed by a successful assembly. -/
theorem readVcf_of_readLoop (lines : List Str) (st : State)
    (hl : readLoop State.init lines = .ok st)
    (hall : ∀ d ∈ dataLines lines, (lineTokens d).length = 9 + st.sampleIDs.length) :
    ∃ m, readVcf lines = .ok m := by
  obtain ⟨_, _, i3, i4, i5⟩ := readLoop_ok State.init st lines hl
  simp only [State.init, List.nil_append, Nat.zero_add] at i3 i4
  have hrows : ∀ row ∈ (dataLines lines).map lineCodes, row.length = st.sampleIDs.length := by
    intro row hrow
    obtain ⟨d, hd, rfl⟩ := List.mem_map.1 hrow
    have h1 := (i5 d hd).2.1
    have h2 := hall d hd
    omega
  have hcells := fillRows_flat st.sampleIDs.length ((dataLines lines).map lineCodes) [] hrows
  simp only [List.nil_append, List.length_nil, List.length_map] at hcells
  rw [← i4, ← i3] at hcells
  refine ⟨{ nrow := st.nvar, ncol := st.sampleIDs.length,
            cells := ((dataLines lines).map lineCodes).map (fun row => row.map cellOfCode),
            rownames := st.markerIDs, colnames := st.sampleIDs }, ?_⟩
  simp only [readVcf, hl, assemble, hcells]

/-- A well-formed input yields a matrix. -/
theorem readVcf_wellFormed (n : Nat) (lines : List Str) (h : wellFormed n lines = true) :
    ∃ m, readVcf lines = .ok m := by
  obtain ⟨st, hl, hn, hall⟩ := readLoop_wellFormed n lines h
  obtain ⟨i1, _⟩ := readLoop_ok State.init st lines hl
  simp only [State.init, List.nil_append] at i1
  exact readVcf_of_readLoop lines st hl (fun d hd => by rw [i1, hn]; exact hall d hd)

/-! ## The claims -/

/-- C1 (as stated, refuted): the input `halfMissingInput` is well-formed; its genotype
token `0/.` does not start with `'.'` and has three characters, so the stated decoding
is the number `(t[0] - '0') + (t[2] - '0') = -2`, but the cell of the returned matrix is
missing. -/
theorem stated_decoding_counterexample :
    wellFormed 1 halfMissingInput = true ∧
    (dataLines halfMissingInput)[0]? = some halfMissingData ∧
    (lineTokens halfMissingData)[9 + 0]? = some "0/.".toList ∧
    statedCell "0/.".toList = .val (-2) ∧
    readVcf halfMissingInput = .ok (singleCellMatrix .na) ∧
    ∃ m, readVcf halfMissingInput = .ok m ∧ m.cell 0 0 ≠ some (statedCell "0/.".toList) := by
  refine ⟨by decide, by decide, by decide, by decide, by decide, _, rfl, by decide⟩

/-- C1 (amended): for every well-formed input (meta lines, exactly one column-header line
with `n` sample tokens before every data line, data lines of `9 + n` tokens whose
genotype tokens start with `'.'` or have at least three characters) `readVcf` returns a
matrix whose cell `(i, j)` decodes token `9 + j` of the `i`-th data line: missing when
the token starts with `'.'` or the sum `(t[0] - '0') + (t[2] - '0')`, computed on signed
`char` values, is negative, otherwise that sum. The scenario of section 8 gives the 1x2
matrix with cells 1, missing. -/
theorem wellFormed_cells (n : Nat) (lines : List Str) (h : wellFormed n lines = true) :
    (∃ m, readVcf lines = .ok m ∧
      ∀ (i j : Nat) (d t : Str), (dataLines lines)[i]? = some d →
        (lineTokens d)[9 + j]? = some t → m.cell i j = some (decodedCell t)) ∧
    readVcf scenarioInput = .ok scenarioMatrix := by
  refine ⟨?_, by decide⟩
  obtain ⟨m, hm⟩ := readVcf_wellFormed n lines h
  refine ⟨m, hm, ?_⟩
  intro i j d t hd ht
  obtain ⟨c, hc1, hc2⟩ := readVcf_cell lines m hm i j d t hd ht
  rw [hc2, genotypeCell_ok t c hc1]

/-- C1 on the scenario of section 8: the input is well-formed with two samples, and the
returned matrix has its cells decoded from the tokens `0/1` and `./.`. -/
theorem wellFormed_cells_witness :
    wellFormed 2 scenarioInput = true ∧
    ((∃ m, readVcf scenarioInput = .ok m ∧
      ∀ (i j : Nat) (d t : Str), (dataLines scenarioInput)[i]? = some d →
        (lineTokens d)[9 + j]? = some t → m.cell i j = some (decodedCell t)) ∧
    readVcf scenarioInput = .ok scenarioMatrix) :=
  ⟨by decide, wellFormed_cells 2 scenarioInput (by decide)⟩

theorem dataLines_eq_filter (lines : List Str) :
    dataLines lines = lines.filter (fun l => decide (charAt l 0 ≠ '#')) := by
  unfold dataLines
  congr 1
  funext l
  by_cases h0 : charAt l 0 = '#'
  · by_cases h1 : charAt l 1 = '#' <;> simp [classify, h0, h1]
  · simp [classify, h0]

/-- C2: whenever `readVcf` returns a matrix, its number of rows is the number of data
lines (lines whose first character is not `'#'`), and, the input having exactly one
column-header line, its number of columns is the number of tokens of that line at
positions 9 and above; the matrix has that many rows of that many cells. -/
theorem matrix_dimensions (lines : List Str) (m : IntegerMatrix) (hdr : Str)
    (h : readVcf lines = .ok m) (hh : headerLines lines = [hdr]) :
    m.nrow = (lines.filter (fun l => decide (charAt l 0 ≠ '#'))).length ∧
    m.ncol = ((tokenizeLine (cstr hdr)).drop 9).length ∧
    m.cells.length = m.nrow ∧ ∀ row ∈ m.cells, row.length = m.ncol := by
  obtain ⟨h1, h2, _, _, h5, h6⟩ := readVcf_ok lines m h
  refine ⟨by rw [h1, dataLines_eq_filter], ?_, by rw [h5, h1, List.length_map], ?_⟩
  · rw [h2]
    simp [declaredSamples, hh, sampleTokens, lineTokens]
  · intro row hrow
    rw [h5] at hrow
    obtain ⟨d, hd, rfl⟩ := List.mem_map.1 hrow
    rw [List.length_map]
    exact (h6 d hd).2.2

/-- C2 on the scenario of section 8: one data line and two sample tokens give a matrix
of one row and two columns. -/
theorem matrix_dimensions_witness :
    readVcf scenarioInput = .ok scenarioMatrix ∧ headerLines scenarioInput = [scenarioHeader] ∧
    (scenarioMatrix.nrow = (scenarioInput.filter (fun l => decide (charAt l 0 ≠ '#'))).length ∧
     scenarioMatrix.ncol = ((tokenizeLine (cstr scenarioHeader)).drop 9).length ∧
     scenarioMatrix.cells.length = scenarioMatrix.nrow ∧
     ∀ row ∈ scenarioMatrix.cells, row.length = scenarioMatrix.ncol) :=
  ⟨by decide, by decide,
    matrix_dimensions scenarioInput scenarioMatrix scenarioHeader (by decide) (by decide)⟩

/-- C4: when a data line tokenizes into a number of tokens different from 9 plus the
number of sample identifiers declared by the header lines before it, `readVcf` returns
no matrix, whatever comes before and after; and when the lines before it were all
accepted, the failure is the `stop` of line 62. -/
theorem token_count_mismatch_fails (pre post : List Str) (d : Str)
    (hd : classify d = .data)
    (hn : (lineTokens d).length ≠ 9 + (declaredSamples pre).length) :
    (∃ e, readVcf (pre ++ d :: post) = .error e) ∧
    (∀ st, readLoop State.init pre = .ok st →
      readVcf (pre ++ d :: post) = .error (.stop mismatchMessage)) := by
  have key : ∀ st, readLoop State.init pre = .ok st →
      readVcf (pre ++ d :: post) = .error (.stop mismatchMessage) := by
    intro st hst
    obtain ⟨i1, _⟩ := readLoop_ok State.init st pre hst
    simp only [State.init, List.nil_append] at i1
    have hs : step st d = .error (.stop mismatchMessage) :=
      step_data_mismatch st d hd (by rw [i1]; exact hn)
    simp only [readVcf, readLoop_append, hst, readLoop, hs]
  refine ⟨?_, key⟩
  cases hp : readLoop State.init pre with
  | error e => exact ⟨e, by simp only [readVcf, readLoop_append, hp]⟩
  | ok st => exact ⟨_, key st hp⟩

/-- C4 on a data line with one field fewer than the two declared samples require, after
one valid data line: the read stops with the message of line 62. -/
theorem token_count_mismatch_fails_witness :
    classify shortData = .data ∧
    (lineTokens shortData).length ≠ 9 + (declaredSamples [scenarioHeader, scenarioData]).length ∧
    readVcf ([scenarioHeader, scenarioData] ++ shortData :: [scenarioData]) =
      .error (.stop mismatchMessage) ∧
    ((∃ e, readVcf ([scenarioHeader, scenarioData] ++ shortData :: [scenarioData]) = .error e) ∧
     (∀ st, readLoop State.init [scenarioHeader, scenarioData] = .ok st →
       readVcf ([scenarioHeader, scenarioData] ++ shortData :: [scenarioData]) =
         .error (.stop mismatchMessage))) :=
  ⟨by decide, by decide, by decide,
    token_count_mismatch_fails [scenarioHeader, scenarioData] [scenarioData] shortData
      (by decide) (by decide)⟩

/-- C5: whenever `readVcf` returns a matrix, its row labels are, in file order, one per
data line, the tokens 0, 1, 3 and 4 of that line joined with `':'`; every data line has
these tokens. Nothing is merged: the list is a map over the data lines, so equal lines
give equal labels in separate rows, as `repeatedInput` shows. -/
theorem row_labels (lines : List Str) (m : IntegerMatrix) (h : readVcf lines = .ok m) :
    m.rownames = (dataLines lines).map (fun d => variantLabel (lineTokens d)) ∧
    m.rownames.length = (dataLines lines).length ∧
    m.nrow = m.rownames.length ∧
    (∀ d ∈ dataLines lines, 9 ≤ (lineTokens d).length) ∧
    readVcf repeatedInput = .ok repeatedMatrix := by
  obtain ⟨h1, _, h3, _, _, h6⟩ := readVcf_ok lines m h
  refine ⟨h3, by rw [h3, List.length_map], by rw [h3, List.length_map, h1], ?_, by decide⟩
  intro d hd
  have := (h6 d hd).2.1
  omega

/-- C5 on two data lines with identical CHROM, POS, REF and ALT: two rows, both labelled
`20:100:A:T`. -/
theorem row_labels_witness :
    readVcf repeatedInput = .ok repeatedMatrix ∧
    repeatedMatrix.rownames = ["20:100:A:T".toList, "20:100:A:T".toList] ∧
    (repeatedMatrix.rownames =
        (dataLines repeatedInput).map (fun d => variantLabel (lineTokens d)) ∧
      repeatedMatrix.rownames.length = (dataLines repeatedInput).length ∧
      repeatedMatrix.nrow = repeatedMatrix.rownames.length ∧
      (∀ d ∈ dataLines repeatedInput, 9 ≤ (lineTokens d).length) ∧
      readVcf repeatedInput = .ok repeatedMatrix) :=
  ⟨by decide, by decide, row_labels repeatedInput repeatedMatrix (by decide)⟩

/-- C6: for an input with exactly one column-header line on which `readVcf` returns a
matrix, the column labels are the tokens of that line from position 9 to the end, in
order: label `k` is token `9 + k`, so no token at a position below 9 is a label by
virtue of its position. -/
theorem column_labels (lines : List Str) (m : IntegerMatrix) (hdr : Str)
    (h : readVcf lines = .ok m) (hh : headerLines lines = [hdr]) :
    m.colnames = (tokenizeLine (cstr hdr)).drop 9 ∧
    m.colnames.length = (tokenizeLine (cstr hdr)).length - 9 ∧
    ∀ k : Nat, m.colnames[k]? = (tokenizeLine (cstr hdr))[9 + k]? := by
  obtain ⟨_, _, _, h4, _, _⟩ := readVcf_ok lines m h
  have e : m.colnames = (tokenizeLine (cstr hdr)).drop 9 := by
    rw [h4]
    simp [declaredSamples, hh, sampleTokens, lineTokens]
  refine ⟨e, by rw [e, List.length_drop], ?_⟩
  intro k
  rw [e, List.getElem?_drop]

/-- C6 on the scenario of section 8: the labels are `S1`, `S2`, the tokens 9 and 10 of
the header line. -/
theorem column_labels_witness :
    readVcf scenarioInput = .ok scenarioMatrix ∧ headerLines scenarioInput = [scenarioHeader] ∧
    scenarioMatrix.colnames = ["S1".toList, "S2".toList] ∧
    (scenarioMatrix.colnames = (tokenizeLine (cstr scenarioHeader)).drop 9 ∧
     scenarioMatrix.colnames.length = (tokenizeLine (cstr scenarioHeader)).length - 9 ∧
     ∀ k : Nat, scenarioMatrix.colnames[k]? = (tokenizeLine (cstr scenarioHeader))[9 + k]?) :=
  ⟨by decide, by decide, by decide,
    column_labels scenarioInput scenarioMatrix scenarioHeader (by decide) (by decide)⟩

/-! ## Tokens at the end of a line -/

theorem splitFields_ne_nil (s : Str) (h : s ≠ []) : splitFields s ≠ [] := by
  cases s with
  | nil => exact absurd rfl h
  | cons c cs =>
    unfold splitFields
    by_cases hc : isDelim c = true
    · simp [hc]
    · simp only [hc]
      cases splitFields cs <;> simp

/-- Text without a delimiter is one token. -/
theorem splitFields_plain (s : Str) (h : s ≠ []) (hs : ∀ c ∈ s, isDelim c = false) :
    splitFields s = [s] := by
  induction s with
  | nil => exact absurd rfl h
  | cons c cs ih =>
    have hc : isDelim c = false := hs c (List.mem_cons_self _ _)
    unfold splitFields
    simp only [hc]
    cases cs with
    | nil => simp [splitFields]
    | cons x xs =>
      rw [ih (by simp) (fun y hy => hs y (List.mem_cons_of_mem _ hy))]
      simp

theorem splitFields_cons (c : Char) (cs : Str) :
    splitFields (c :: cs) =
      if isDelim c then [] :: splitFields cs
      else
        match splitFields cs with
        | [] => [[c]]
        | t :: ts => (c :: t) :: ts := by
  rw [splitFields]

/-- Tokenization starts afresh after a delimiter. -/
theorem splitFields_restart (a b : Str) (d : Char) (hd : isDelim d = true) :
    splitFields (a ++ d :: b) = splitFields (a ++ [d]) ++ splitFields b := by
  induction a with
  | nil => simp [splitFields, hd]
  | cons c a ih =>
    rw [List.cons_append, List.cons_append, splitFields_cons, splitFields_cons, ih]
    by_cases hc : isDelim c = true
    · simp [hc]
    · simp only [hc]
      have hne : splitFields (a ++ [d]) ≠ [] := splitFields_ne_nil _ (by simp)
      cases hsf : splitFields (a ++ [d]) with
      | nil => exact absurd hsf hne
      | cons t ts => simp

/-- A delimiter right after a non-delimiter character only closes the last token. -/
theorem splitFields_close (body : Str) (c d : Char) (hc : isDelim c = false)
    (hd : isDelim d = true) : splitFields (body ++ [c, d]) = splitFields (body ++ [c]) := by
  induction body with
  | nil => simp [splitFields, hc, hd]
  | cons x body ih =>
    rw [List.cons_append, List.cons_append, splitFields_cons, splitFields_cons, ih]

/-- The last token of text that ends with a non-delimiter character is not empty. -/
theorem splitFields_last_nonempty (body : Str) (c : Char) (hc : isDelim c = false) :
    ∃ ts t, splitFields (body ++ [c]) = ts ++ [t] ∧ t ≠ [] := by
  induction body with
  | nil => exact ⟨[], [c], by simp [splitFields, hc], by simp⟩
  | cons x body ih =>
    obtain ⟨ts, t, h1, h2⟩ := ih
    rw [List.cons_append, splitFields_cons, h1]
    by_cases hx : isDelim x = true
    · exact ⟨[] :: ts, t, by simp [hx], h2⟩
    · simp only [hx]
      cases ts with
      | nil => exact ⟨[], x :: t, by simp, by simp⟩
      | cons u us => exact ⟨(x :: u) :: us, t, by simp, h2⟩

/-- C7 (as stated, refuted): the lines `"\n"` and `"a\t\n"` end with a delimiter, and the
token sequences returned for them end with an empty token. -/
theorem trailing_empty_token_counterexample :
    isDelim '\n' = true ∧
    tokenizeLine "\n".toList = [[]] ∧ (tokenizeLine "\n".toList).getLast? = some [] ∧
    tokenizeLine "a\t\n".toList = ["a".toList, []] ∧
    (tokenizeLine "a\t\n".toList).getLast? = some [] := by
  refine ⟨by decide, by decide, by decide, by decide, by decide⟩

/-- C7 (amended): `tokenizeLine` makes no token of the empty text after a final
delimiter. A line that ends with a delimiter placed right after a non-delimiter
character has the tokens of the line without that delimiter, and its last token is not
empty; a line that ends with a delimiter placed first or right after another delimiter
ends with the empty token of that empty field; and non-delimiter content after the last
delimiter (or in a line without delimiter) is returned as exactly one final token. -/
theorem trailing_token (body pre tail : Str) (c d d' : Char)
    (hc : isDelim c = false) (hd : isDelim d = true) (hd' : isDelim d' = true)
    (ht : tail ≠ []) (htail : ∀ x ∈ tail, isDelim x = false) :
    (tokenizeLine (body ++ [c, d]) = tokenizeLine (body ++ [c]) ∧
      ∃ ts t, tokenizeLine (body ++ [c, d]) = ts ++ [t] ∧ t ≠ []) ∧
    tokenizeLine [d] = [[]] ∧
    tokenizeLine (body ++ [d', d]) = tokenizeLine (body ++ [d']) ++ [[]] ∧
    tokenizeLine tail = [tail] ∧
    tokenizeLine (pre ++ [d] ++ tail) = tokenizeLine (pre ++ [d]) ++ [tail] := by
  simp only [tokenizeLine_eq]
  refine ⟨⟨splitFields_close body c d hc hd, ?_⟩, by simp [splitFields, hd], ?_,
    splitFields_plain tail ht htail, ?_⟩
  · rw [splitFields_close body c d hc hd]
    exact splitFields_last_nonempty body c hc
  · have e : body ++ [d', d] = body ++ d' :: [d] := by simp
    rw [e, splitFields_restart body [d] d' hd']
    simp [splitFields, hd]
  · have e : pre ++ [d] ++ tail = pre ++ d :: tail := by simp
    rw [e, splitFields_restart pre tail d hd, splitFields_plain tail ht htail]

/-- C7 on concrete lines: `"a\tb\n"` has the tokens of `"a\tb"`, the last one `b`;
`"a\t\n"` ends with an empty token; `"a\tbc"` ends with the single token `bc`. -/
theorem trailing_token_witness :
    isDelim 'b' = false ∧ isDelim '\n' = true ∧ isDelim '\t' = true ∧
    "bc".toList ≠ [] ∧ (∀ x ∈ "bc".toList, isDelim x = false) ∧
    ((tokenizeLine ("a\t".toList ++ ['b', '\n']) = tokenizeLine ("a\t".toList ++ ['b']) ∧
      ∃ ts t, tokenizeLine ("a\t".toList ++ ['b', '\n']) = ts ++ [t] ∧ t ≠ []) ∧
    tokenizeLine ['\n'] = [[]] ∧
    tokenizeLine ("a\t".toList ++ ['\t', '\n']) = tokenizeLine ("a\t".toList ++ ['\t']) ++ [[]] ∧
    tokenizeLine "bc".toList = ["bc".toList] ∧
    tokenizeLine ("a".toList ++ ['\n'] ++ "bc".toList) =
      tokenizeLine ("a".toList ++ ['\n']) ++ ["bc".toList]) :=
  ⟨by decide, by decide, by decide, by decide, by decide,
    trailing_token "a\t".toList "a".toList "bc".toList 'b' '\n' '\t'
      (by decide) (by decide) (by decide) (by decide) (by decide)⟩

/-! ## Dots, empty sample lists and meta lines -/

/-- C8 (as stated, refuted): the token `2/.` has three characters and its third
character is `'.'`, yet its cell in the returned matrix is the number 0. -/
theorem third_dot_counterexample :
    (dataLines thirdDotInput)[0]? = some thirdDotData ∧
    (lineTokens thirdDotData)[9 + 0]? = some "2/.".toList ∧
    3 ≤ "2/.".toList.length ∧ "2/.".toList.getD 2 NUL = '.' ∧
    genotypeCell "2/.".toList = .ok (.val 0) ∧
    readVcf thirdDotInput = .ok (singleCellMatrix (.val 0)) ∧
    (singleCellMatrix (.val 0)).cell 0 0 = some (.val 0) := by
  refine ⟨by decide, by decide, by decide, by decide, by decide, by decide, by decide⟩

/-- C8 (amended): in every returned matrix, the cell of a genotype token of at least
three characters is missing when the first character is `'.'`, and when the third
character is `'.'` and the first character, as a signed `char`, is below `'2'` (as in
`0/.` and `1/.`, and for every byte of 0x80 or more); when the third character is `'.'`
and the first is `'2'` or more as a signed `char` (codes 50 to 127), the cell is the
number `t[0] - '2'`. -/
theorem dot_cells (lines : List Str) (m : IntegerMatrix) (i j : Nat) (d t : Str)
    (h : readVcf lines = .ok m) (hd : (dataLines lines)[i]? = some d)
    (ht : (lineTokens d)[9 + j]? = some t) (h3 : 3 ≤ t.length) :
    (t.getD 0 NUL = '.' → m.cell i j = some .na) ∧
    (t.getD 2 NUL = '.' → charVal (t.getD 0 NUL) < charVal '2' → m.cell i j = some .na) ∧
    (t.getD 2 NUL = '.' → charVal '2' ≤ charVal (t.getD 0 NUL) →
      m.cell i j = some (.val (charVal (t.getD 0 NUL) - charVal '2'))) ∧
    (t.getD 2 NUL = '.' → 128 ≤ (t.getD 0 NUL).toNat → (t.getD 0 NUL).toNat < 256 →
      m.cell i j = some .na) := by
  obtain ⟨c, hc1, hc2⟩ := readVcf_cell lines m h i j d t hd ht
  have h2 : charVal '2' = 50 := by decide
  have hsum : t.getD 2 NUL = '.' → alleleSum t = charVal (t.getD 0 NUL) - 50 := by
    intro e
    simp only [alleleSum, e, charVal_zero, charVal_dot]
    omega
  have hlow : t.getD 2 NUL = '.' → charVal (t.getD 0 NUL) < charVal '2' →
      m.cell i j = some .na := by
    intro e hlt
    by_cases hfirst : t.getD 0 NUL = '.'
    · rw [hc2, ← Except.ok.inj ((genotypeCell_dot t hfirst).symm.trans hc1)]
    · have hneg : alleleSum t < 0 := by rw [hsum e]; omega
      have := (genotypeCell_sum t hfirst (by omega)).symm.trans hc1
      rw [if_pos hneg] at this
      rw [hc2, ← Except.ok.inj this]
  refine ⟨?_, hlow, ?_, ?_⟩
  · intro e
    rw [hc2, ← Except.ok.inj ((genotypeCell_dot t e).symm.trans hc1)]
  · intro e hge
    have hfirst : t.getD 0 NUL ≠ '.' := by
      intro hh
      rw [hh, charVal_dot, h2] at hge
      omega
    have hnn : ¬ alleleSum t < 0 := by rw [hsum e]; omega
    have := (genotypeCell_sum t hfirst (by omega)).symm.trans hc1
    rw [if_neg hnn] at this
    rw [hc2, ← Except.ok.inj this, hsum e, h2]
  · intro e h128 h256
    apply hlow e
    rw [h2]
    unfold charVal
    omega

/-- C8 on the token `0/.` of `halfMissingInput`: its cell is missing. -/
theorem dot_cells_witness :
    readVcf halfMissingInput = .ok (singleCellMatrix .na) ∧
    (dataLines halfMissingInput)[0]? = some halfMissingData ∧
    (lineTokens halfMissingData)[9 + 0]? = some "0/.".toList ∧
    3 ≤ "0/.".toList.length ∧ "0/.".toList.getD 2 NUL = '.' ∧
    charVal ("0/.".toList.getD 0 NUL) < charVal '2' ∧
    (singleCellMatrix .na).cell 0 0 = some .na :=
  ⟨by decide, by decide, by decide, by decide, by decide, by decide,
    (dot_cells halfMissingInput (singleCellMatrix .na) 0 0 halfMissingData "0/.".toList
      (by decide) (by decide) (by decide) (by decide)).2.1 (by decide) (by decide)⟩

/-- With an empty sample list, lines that declare no sample and data lines of nine
tokens are all accepted, and the sample list stays empty. -/
theorem readLoop_noSamples (lines : List Str) (st : State) (hst : st.sampleIDs = [])
    (h : ∀ l ∈ lines, (classify l = .header → sampleTokens l = []) ∧
      (classify l = .data → (lineTokens l).length = 9)) :
    ∃ st', readLoop st lines = .ok st' ∧ st'.sampleIDs = [] ∧ st'.genotypes = st.genotypes := by
  induction lines generalizing st with
  | nil => exact ⟨st, rfl, hst, rfl⟩
  | cons l ls ih =>
    obtain ⟨hh, hdat⟩ := h l (List.mem_cons_self _ _)
    have hrest := fun x hx => h x (List.mem_cons_of_mem _ hx)
    cases hc : classify l with
    | meta =>
      obtain ⟨st', h1, h2, h3⟩ := ih st hst hrest
      exact ⟨st', by simp only [readLoop, step_meta st l hc]; exact h1, h2, h3⟩
    | header =>
      obtain ⟨st', h1, h2, h3⟩ := ih { st with sampleIDs := st.sampleIDs ++ sampleTokens l }
        (by simp [hst, hh hc]) hrest
      exact ⟨st', by simp only [readLoop, step_header st l hc]; exact h1, h2, h3⟩
    | data =>
      have hlen := hdat hc
      have hv : validDataLine st.sampleIDs.length l = true := by
        have hdrop : List.drop 9 (lineTokens l) = [] := List.drop_eq_nil_of_le (by omega)
        simp [validDataLine, hc, hlen, hst, hdrop]
      obtain ⟨st1, hs⟩ := step_data_valid st l hv
      obtain ⟨_, k2, e⟩ := step_data_ok st st1 l hc hs
      have hcodes : lineCodes l = [] := by
        obtain ⟨g1, _⟩ := decodeAll_ok _ _ k2
        have : (lineCodes l).length = 0 := by rw [g1, List.length_drop]; omega
        exact List.length_eq_zero.1 this
      obtain ⟨st', h1, h2, h3⟩ := ih st1 (by rw [e]; exact hst) hrest
      refine ⟨st', by simp only [readLoop, hs]; exact h1, h2, ?_⟩
      rw [h3, e, hcodes]
      simp

/-- C9: when no column-header line has a token at position 9 or above and every data
line tokenizes into exactly nine tokens, `readVcf` returns a matrix with one row per
data line and no column: every row is empty, there is one row label per data line and
no column label, and the genotype buffer is empty at the end of the read loop. -/
theorem zero_samples (lines : List Str)
    (h : ∀ l ∈ lines, (classify l = .header → (tokenizeLine (cstr l)).drop 9 = []) ∧
      (classify l = .data → (tokenizeLine (cstr l)).length = 9)) :
    ∃ m, readVcf lines = .ok m ∧
      m.nrow = (dataLines lines).length ∧ m.ncol = 0 ∧
      m.cells = List.replicate (dataLines lines).length [] ∧
      m.rownames.length = (dataLines lines).length ∧ m.colnames = [] ∧
      ∃ st, readLoop State.init lines = .ok st ∧ st.genotypes = [] := by
  obtain ⟨st, hl, hs, hg⟩ := readLoop_noSamples lines State.init rfl h
  have hall : ∀ d ∈ dataLines lines, (lineTokens d).length = 9 + st.sampleIDs.length := by
    intro d hd
    have hd' : d ∈ lines ∧ classify d = .data := by simpa [dataLines] using hd
    rw [hs]
    exact (h d hd'.1).2 hd'.2
  obtain ⟨m, hm⟩ := readVcf_of_readLoop lines st hl hall
  obtain ⟨h1, h2, h3, h4, h5, h6⟩ := readVcf_ok lines m hm
  obtain ⟨i1, _⟩ := readLoop_ok State.init st lines hl
  simp only [State.init, List.nil_append] at i1
  have hds : declaredSamples lines = [] := by rw [← i1, hs]
  have hcols : m.ncol = 0 := by rw [h2, hds]; rfl
  refine ⟨m, hm, h1, hcols, ?_, by rw [h3, List.length_map], by rw [h4, hds], st, hl, hg⟩
  rw [h5]
  have : ∀ d ∈ dataLines lines, (lineCodes d).map cellOfCode = [] := by
    intro d hd
    have := (h6 d hd).2.2
    rw [hcols] at this
    rw [List.length_eq_zero.1 this]
    rfl
  rw [List.map_congr_left this]
  exact List.eq_replicate_iff.2 ⟨by simp, by simp⟩

/-- C9 on the bare header followed by two data lines of nine tokens: a 2x0 matrix. -/
theorem zero_samples_witness :
    (∀ l ∈ noSampleInput, (classify l = .header → (tokenizeLine (cstr l)).drop 9 = []) ∧
      (classify l = .data → (tokenizeLine (cstr l)).length = 9)) ∧
    readVcf noSampleInput = .ok noSampleMatrix ∧
    ∃ m, readVcf noSampleInput = .ok m ∧
      m.nrow = (dataLines noSampleInput).length ∧ m.ncol = 0 ∧
      m.cells = List.replicate (dataLines noSampleInput).length [] ∧
      m.rownames.length = (dataLines noSampleInput).length ∧ m.colnames = [] ∧
      ∃ st, readLoop State.init noSampleInput = .ok st ∧ st.genotypes = [] :=
  ⟨by decide, by decide, zero_samples noSampleInput (by decide)⟩

/-- C10: a line whose first two characters are `'#'` is skipped by the read loop:
with the line inserted at any place among the lines, or deleted from there, `readVcf`
gives the same matrix with the same labels, or the same failure. -/
theorem meta_line_ignored (pre post : List Str) (ml : Str)
    (h0 : charAt ml 0 = '#') (h1 : charAt ml 1 = '#') :
    readVcf (pre ++ ml :: post) = readVcf (pre ++ post) := by
  have hc : classify ml = .meta := by simp [classify, h0, h1]
  simp only [readVcf, readLoop_append]
  cases readLoop State.init pre with
  | error e => rfl
  | ok st => simp only [readLoop, step_meta st ml hc]

/-- C10 on the scenario of section 8 with a meta line between header and data line. -/
theorem meta_line_ignored_witness :
    charAt metaLine 0 = '#' ∧ charAt metaLine 1 = '#' ∧
    readVcf ([scenarioHeader] ++ metaLine :: [scenarioData]) =
      readVcf ([scenarioHeader] ++ [scenarioData]) ∧
    readVcf ([scenarioHeader] ++ metaLine :: [scenarioData]) = .ok scenarioMatrix :=
  ⟨by decide, by decide,
    meta_line_ignored [scenarioHeader] [scenarioData] metaLine (by decide) (by decide),
    by decide⟩

/-! ## Tokens and delimiters -/

theorem splitFields_no_delim (s : Str) : ∀ t ∈ splitFields s, ∀ c ∈ t, isDelim c = false := by
  induction s with
  | nil => simp [splitFields]
  | cons x xs ih =>
    rw [splitFields_cons]
    by_cases hx : isDelim x = true
    · rw [if_pos hx]
      intro t ht
      rcases List.mem_cons.1 ht with rfl | ht
      · simp
      · exact ih t ht
    · have hx' : isDelim x = false := by simpa using hx
      rw [if_neg hx]
      cases hsf : splitFields xs with
      | nil =>
        intro t ht c hc
        have ht' : t = [x] := by simpa using ht
        subst ht'
        have hc' : c = x := by simpa using hc
        subst hc'
        exact hx'
      | cons u us =>
        rw [hsf] at ih
        intro t ht c hc
        have ht' : t = x :: u ∨ t ∈ us := by simpa using ht
        rcases ht' with rfl | ht'
        · rcases List.mem_cons.1 hc with rfl | hc
          · exact hx'
          · exact ih u (List.mem_cons_self _ _) c hc
        · exact ih t (List.mem_cons_of_mem _ ht') c hc

theorem splitFields_flatten (s : Str) :
    (splitFields s).flatten = s.filter (fun c => !isDelim c) := by
  induction s with
  | nil => simp [splitFields]
  | cons x xs ih =>
    rw [splitFields_cons]
    by_cases hx : isDelim x = true
    · simp [hx, ih]
    · have hx' : isDelim x = false := by simpa using hx
      simp only [hx]
      cases hsf : splitFields xs with
      | nil =>
        rw [hsf] at ih
        simp only [List.flatten_nil] at ih
        simp [List.filter_cons, hx', ← ih]
      | cons u us =>
        rw [hsf] at ih
        simp only [List.flatten_cons] at ih
        simp [List.filter_cons, hx', ← ih]

theorem endsOpen_cons (x : Char) (xs : Str) :
    endsOpen (x :: xs) = if xs = [] then !isDelim x else endsOpen xs := by
  cases xs with
  | nil => simp [endsOpen]
  | cons y ys => simp [endsOpen, List.getLast?_cons_cons]

theorem splitFields_length (s : Str) :
    (splitFields s).length =
      (s.filter isDelim).length + (if endsOpen s = true then 1 else 0) := by
  induction s with
  | nil => simp [splitFields, endsOpen]
  | cons x xs ih =>
    rw [splitFields_cons, endsOpen_cons]
    by_cases hx : isDelim x = true
    · simp only [hx, if_true, List.length_cons, ih, List.filter_cons]
      cases xs with
      | nil => simp [endsOpen]
      | cons y ys => simp; omega
    · have hx' : isDelim x = false := by simpa using hx
      simp only [hx, List.filter_cons]
      cases xs with
      | nil => simp [splitFields, hx']
      | cons y ys =>
        have hne : splitFields (y :: ys) ≠ [] := splitFields_ne_nil _ (by simp)
        cases hsf : splitFields (y :: ys) with
        | nil => exact absurd hsf hne
        | cons u us =>
          rw [hsf] at ih
          simp only [List.length_cons] at ih
          simp only [List.length_cons]
          simpa [hx'] using ih

theorem delimIdx_length (s : Str) (off : Nat) :
    (delimIdx s off).length = (s.filter isDelim).length := by
  induction s generalizing off with
  | nil => simp [delimIdx]
  | cons x xs ih =>
    by_cases hx : isDelim x = true <;> simp [delimIdx, hx, List.filter_cons, ih]

theorem delimIdx_of_none (s : Str) (off : Nat) (h : findFirstOfAux s off = none) :
    delimIdx s off = [] := by
  induction s generalizing off with
  | nil => simp [delimIdx]
  | cons x xs ih =>
    unfold findFirstOfAux at h
    by_cases hx : isDelim x = true
    · simp [hx] at h
    · simp only [hx] at h
      simp only [delimIdx, hx]
      exact ih (off + 1) (by simpa using h)

theorem delimIdx_of_some (s : Str) (off np : Nat) (h : findFirstOfAux s off = some np) :
    delimIdx s off = np :: delimIdx (s.drop (np - off + 1)) (np + 1) := by
  induction s generalizing off with
  | nil => simp [findFirstOfAux] at h
  | cons x xs ih =>
    unfold findFirstOfAux at h
    by_cases hx : isDelim x = true
    · simp only [hx, if_true, Option.some.injEq] at h
      subst h
      simp [delimIdx, hx]
    · simp only [hx] at h
      have h' : findFirstOfAux xs (off + 1) = some np := by simpa using h
      obtain ⟨h1, _⟩ := findFirstOfAux_some xs (off + 1) np h'
      have e : np - off + 1 = (np - (off + 1) + 1) + 1 := by omega
      simp only [delimIdx, hx]
      rw [ih (off + 1) h', e, List.drop_succ_cons]
      simp

theorem tokenizeLoop_cut (line : Str) (fuel pos : Nat) (toks : List Str)
    (h : line.length < pos + fuel) :
    tokenizeLoop line fuel pos toks = toks ++ cutAt line pos (delimIdx (line.drop pos) pos) := by
  induction fuel generalizing pos toks with
  | zero =>
    have hnil : line.drop pos = [] := List.drop_eq_nil_of_le (by omega)
    have hlt : ¬ pos < line.length := by omega
    simp [tokenizeLoop, hnil, delimIdx, cutAt, hlt]
  | succ fuel ih =>
    unfold tokenizeLoop
    cases hf : findFirstOf line pos with
    | none =>
      rw [delimIdx_of_none _ _ hf]
      by_cases hp : pos < line.length <;> simp [cutAt, hp]
    | some np =>
      obtain ⟨h1, h2, _⟩ := findFirstOfAux_some _ _ _ hf
      simp only
      rw [ih (np + 1) _ (by omega), delimIdx_of_some _ _ _ hf, List.drop_drop]
      have e : pos + (np - pos + 1) = np + 1 := by omega
      simp [cutAt, e]

/-- The tokens are the fields cut at the delimiter positions. -/
theorem tokenizeLine_cut (line : Str) :
    tokenizeLine line = cutAt line 0 (delimPositions line) := by
  have := tokenizeLoop_cut line (line.length + 1) 0 [] (by omega)
  simpa [tokenizeLine, delimPositions] using this

theorem startAfter_succ (start q : Nat) (qs : List Nat) (k : Nat) :
    startAfter start (q :: qs) (k + 1) = startAfter (q + 1) qs k := by
  cases k with
  | zero => simp [startAfter]
  | succ k => simp [startAfter]

theorem cutAt_getElem (line : Str) (ds : List Nat) (start k p : Nat) (h : ds[k]? = some p) :
    (cutAt line start ds)[k]? =
      some (substr line (startAfter start ds k) (p - startAfter start ds k)) := by
  induction ds generalizing start k with
  | nil => simp at h
  | cons q qs ih =>
    cases k with
    | zero =>
      simp only [List.getElem?_cons_zero, Option.some.injEq] at h
      subst h
      simp [cutAt, startAfter]
    | succ k =>
      simp only [List.getElem?_cons_succ] at h
      rw [startAfter_succ]
      simp only [cutAt, List.getElem?_cons_succ]
      exact ih (q + 1) k h

theorem cutAt_length (line : Str) (ds : List Nat) (start : Nat) :
    (cutAt line start ds).length =
      ds.length + (if startAfter start ds ds.length < line.length then 1 else 0) := by
  induction ds generalizing start with
  | nil => by_cases h : start < line.length <;> simp [cutAt, startAfter, h]
  | cons q qs ih =>
    simp only [cutAt, List.length_cons, ih (q + 1), startAfter_succ]
    omega

theorem cutAt_last (line : Str) (ds : List Nat) (start : Nat)
    (h : startAfter start ds ds.length < line.length) :
    (cutAt line start ds)[ds.length]? = some (line.drop (startAfter start ds ds.length)) := by
  induction ds generalizing start with
  | nil =>
    have h' : start < line.length := by simpa [startAfter] using h
    simp [cutAt, startAfter, h']
  | cons q qs ih =>
    simp only [List.length_cons, startAfter_succ] at h ⊢
    simp only [cutAt, List.getElem?_cons_succ]
    exact ih (q + 1) h

theorem fieldStart_eq (line : Str) (k : Nat) :
    fieldStart line k = startAfter 0 (delimPositions line) k := rfl

/-- Text goes on after the last delimiter exactly when the line ends open. -/
theorem endsOpen_iff (line : Str) :
    endsOpen line = true ↔
      fieldStart line (delimPositions line).length < line.length := by
  have h1 := splitFields_length line
  have h2 := cutAt_length line (delimPositions line) 0
  have h3 := delimIdx_length line 0
  rw [← tokenizeLine_cut, tokenizeLine_eq, h1] at h2
  rw [fieldStart_eq]
  simp only [delimPositions] at h2 ⊢
  constructor
  · intro ho
    by_contra hs
    rw [if_pos ho, if_neg hs] at h2
    omega
  · intro hs
    by_contra ho
    rw [if_neg ho, if_pos hs] at h2
    omega

/-- The positions listed by `delimPositions` are those of the delimiter characters. -/
theorem mem_delimIdx (s : Str) (off p : Nat) :
    p ∈ delimIdx s off ↔ off ≤ p ∧ ∃ c, s[p - off]? = some c ∧ isDelim c = true := by
  induction s generalizing off with
  | nil => simp [delimIdx]
  | cons x xs ih =>
    have key : p ∈ delimIdx xs (off + 1) ↔
        off < p ∧ ∃ c, (x :: xs)[p - off]? = some c ∧ isDelim c = true := by
      rw [ih (off + 1)]
      constructor
      · rintro ⟨h1, c, h2, h3⟩
        refine ⟨by omega, c, ?_, h3⟩
        have e : p - off = (p - (off + 1)) + 1 := by omega
        rw [e, List.getElem?_cons_succ]
        exact h2
      · rintro ⟨h1, c, h2, h3⟩
        refine ⟨by omega, c, ?_, h3⟩
        have e : p - off = (p - (off + 1)) + 1 := by omega
        rw [e, List.getElem?_cons_succ] at h2
        exact h2
    by_cases hx : isDelim x = true
    · rw [delimIdx, if_pos hx, List.mem_cons, key]
      constructor
      · rintro (h0 | ⟨h1, h2⟩)
        · subst h0
          exact ⟨le_refl _, x, by simp, hx⟩
        · exact ⟨by omega, h2⟩
      · rintro ⟨h1, h2⟩
        by_cases hp : p = off
        · exact Or.inl hp
        · exact Or.inr ⟨by omega, h2⟩
    · rw [delimIdx, if_neg hx, key]
      constructor
      · rintro ⟨h1, h2⟩
        exact ⟨by omega, h2⟩
      · rintro ⟨h1, c, h2, h3⟩
        by_cases hp : p = off
        · subst hp
          simp only [Nat.sub_self, List.getElem?_cons_zero, Option.some.injEq] at h2
          subst h2
          exact absurd h3 hx
        · exact ⟨by omega, c, h2, h3⟩

theorem delimIdx_sorted (s : Str) (off : Nat) : (delimIdx s off).Pairwise (fun a b => a < b) := by
  induction s generalizing off with
  | nil => simp [delimIdx]
  | cons x xs ih =>
    by_cases hx : isDelim x = true
    · rw [delimIdx, if_pos hx, List.pairwise_cons]
      refine ⟨?_, ih (off + 1)⟩
      intro p hp
      have := ((mem_delimIdx xs (off + 1) p).1 hp).1
      omega
    · rw [delimIdx, if_neg hx]
      exact ih (off + 1)

/-- C11: no token returned by `tokenizeLine` contains a tab, newline or carriage return,
and the tokens concatenated in order are the line with every tab, newline and carriage
return removed: the order of the text is kept and exactly the delimiters are dropped. -/
theorem tokens_discard_delimiters (line : Str) :
    (∀ t ∈ tokenizeLine line, ∀ c ∈ t, c ≠ '\t' ∧ c ≠ '\n' ∧ c ≠ '\r') ∧
    (tokenizeLine line).flatten =
      line.filter (fun c => !(c == '\t' || c == '\n' || c == '\r')) := by
  rw [tokenizeLine_eq]
  refine ⟨?_, ?_⟩
  · intro t ht c hc
    have h := splitFields_no_delim line t ht c hc
    simp only [isDelim, Bool.or_eq_false_iff, beq_eq_false_iff_ne, ne_eq] at h
    exact ⟨h.1.1, h.1.2, h.2⟩
  · rw [splitFields_flatten]
    rfl

/-- C11 on the line `"a\t\tb\r\n"`: the tokens `a`, empty, `b`, empty concatenate to
`ab`. -/
theorem tokens_discard_delimiters_witness :
    tokenizeLine "a\t\tb\r\n".toList = ["a".toList, [], "b".toList, []] ∧
    ((∀ t ∈ tokenizeLine "a\t\tb\r\n".toList, ∀ c ∈ t, c ≠ '\t' ∧ c ≠ '\n' ∧ c ≠ '\r') ∧
    (tokenizeLine "a\t\tb\r\n".toList).flatten =
      "a\t\tb\r\n".toList.filter (fun c => !(c == '\t' || c == '\n' || c == '\r'))) :=
  ⟨by decide, tokens_discard_delimiters "a\t\tb\r\n".toList⟩

/-- C17: the number of tokens returned by `tokenizeLine` is the number of delimiter
characters of the line, plus one when the line is not empty and does not end with a
delimiter. With the delimiters at the increasing positions `delimPositions line`, token
`k` is the text from the start of the line (for `k = 0`) or from just after delimiter
`k - 1` up to delimiter `k`; the text after the last delimiter is the last token when the
line ends open; and the field between two adjacent delimiters is kept as an empty token. -/
theorem token_count (line : Str) :
    (tokenizeLine line).length =
      (line.filter isDelim).length + (if endsOpen line = true then 1 else 0) ∧
    (delimPositions line).length = (line.filter isDelim).length ∧
    (delimPositions line).Pairwise (fun a b => a < b) ∧
    (∀ p, p ∈ delimPositions line ↔ ∃ c, (line)[p]? = some c ∧ isDelim c = true) ∧
    (∀ (k p : Nat), (delimPositions line)[k]? = some p →
      (tokenizeLine line)[k]? =
        some (substr line (fieldStart line k) (p - fieldStart line k))) ∧
    (endsOpen line = true →
      (tokenizeLine line)[(delimPositions line).length]? =
        some (line.drop (fieldStart line (delimPositions line).length))) ∧
    (∀ (k p : Nat), (delimPositions line)[k]? = some p →
      (delimPositions line)[k + 1]? = some (p + 1) → (tokenizeLine line)[k + 1]? = some []) := by
  have hidx : ∀ (k p : Nat), (delimPositions line)[k]? = some p →
      (tokenizeLine line)[k]? =
        some (substr line (fieldStart line k) (p - fieldStart line k)) := by
    intro k p h
    rw [tokenizeLine_cut, fieldStart_eq]
    exact cutAt_getElem line _ 0 k p h
  refine ⟨by rw [tokenizeLine_eq, splitFields_length], delimIdx_length line 0,
    delimIdx_sorted line 0, ?_, hidx, ?_, ?_⟩
  · intro p
    have := mem_delimIdx line 0 p
    simpa [delimPositions] using this
  · intro ho
    have hs := (endsOpen_iff line).1 ho
    rw [fieldStart_eq] at hs ⊢
    rw [tokenizeLine_cut]
    exact cutAt_last line _ 0 hs
  · intro k p h1 h2
    rw [hidx (k + 1) (p + 1) h2]
    have e : fieldStart line (k + 1) = p + 1 := by
      simp [fieldStart, List.getD_eq_getElem?_getD, h1]
    rw [e]
    simp [substr]

/-- C17 on the line `"a\t\tb\n"`: three delimiters at 1, 2 and 4, three tokens `a`,
empty, `b`, and no token after the final newline. -/
theorem token_count_witness :
    tokenizeLine "a\t\tb\n".toList = ["a".toList, [], "b".toList] ∧
    delimPositions "a\t\tb\n".toList = [1, 2, 4] ∧
    endsOpen "a\t\tb\n".toList = false ∧
    (tokenizeLine "a\t\tb\n".toList).length =
      ("a\t\tb\n".toList.filter isDelim).length +
        (if endsOpen "a\t\tb\n".toList = true then 1 else 0) :=
  ⟨by decide, by decide, by decide, (token_count "a\t\tb\n".toList).1⟩

/-! ## Cells of a returned matrix -/

/-- In every returned matrix, cell `(i, j)` is `decodedCell` of token `9 + j` of the
`i`-th data line. -/
theorem readVcf_cell_decoded (lines : List Str) (m : IntegerMatrix) (i j : Nat) (d t : Str)
    (h : readVcf lines = .ok m) (hd : (dataLines lines)[i]? = some d)
    (ht : (lineTokens d)[9 + j]? = some t) : m.cell i j = some (decodedCell t) := by
  obtain ⟨c, hc1, hc2⟩ := readVcf_cell lines m h i j d t hd ht
  rw [hc2, genotypeCell_ok t c hc1]

theorem length_of_getD_two (t : Str) (h : t.getD 2 NUL ≠ NUL) : 3 ≤ t.length := by
  by_contra hlt
  apply h
  rw [List.getD_eq_getElem?_getD, List.getElem?_eq_none (by omega)]
  rfl

/-- C14: in every returned matrix, the cell of a genotype token whose first and third
characters are each `'0'` or `'1'` is not missing: it is a number among 0, 1 and 2, the
number of those two characters that are `'1'`. -/
theorem biallelic_count (lines : List Str) (m : IntegerMatrix) (i j : Nat) (d t : Str)
    (h : readVcf lines = .ok m) (hd : (dataLines lines)[i]? = some d)
    (ht : (lineTokens d)[9 + j]? = some t)
    (h0 : t.getD 0 NUL = '0' ∨ t.getD 0 NUL = '1')
    (h2 : t.getD 2 NUL = '0' ∨ t.getD 2 NUL = '1') :
    m.cell i j ≠ some .na ∧
    ∃ v : Int, m.cell i j = some (.val v) ∧ (v = 0 ∨ v = 1 ∨ v = 2) ∧
      v = (if t.getD 0 NUL = '1' then 1 else 0) + (if t.getD 2 NUL = '1' then 1 else 0) := by
  have hcell := readVcf_cell_decoded lines m i j d t h hd ht
  have hdot : ¬ t.head? = some '.' := by
    rw [head?_eq_dot_iff]
    rcases h0 with e | e <;> rw [e] <;> decide
  have key : ∃ v : Int, decodedCell t = .val v ∧ (v = 0 ∨ v = 1 ∨ v = 2) ∧
      v = (if t.getD 0 NUL = '1' then 1 else 0) + (if t.getD 2 NUL = '1' then 1 else 0) := by
    simp only [decodedCell, if_neg hdot, alleleSum]
    rcases h0 with e0 | e0 <;> rcases h2 with e2 | e2 <;> rw [e0, e2]
    · exact ⟨0, by decide, by decide, by decide⟩
    · exact ⟨1, by decide, by decide, by decide⟩
    · exact ⟨1, by decide, by decide, by decide⟩
    · exact ⟨2, by decide, by decide, by decide⟩
  obtain ⟨v, hv1, hv2, hv3⟩ := key
  rw [hcell, hv1]
  exact ⟨by simp, v, rfl, hv2, hv3⟩

/-- C14 on the token `1|0` of `biallelicData`: the cell is the number 1. -/
theorem biallelic_count_witness :
    readVcf [scenarioHeader, biallelicData] = .ok biallelicMatrix ∧
    (dataLines [scenarioHeader, biallelicData])[0]? = some biallelicData ∧
    (lineTokens biallelicData)[9 + 0]? = some "1|0".toList ∧
    biallelicMatrix.cell 0 0 = some (.val 1) ∧
    (biallelicMatrix.cell 0 0 ≠ some .na ∧
    ∃ v : Int, biallelicMatrix.cell 0 0 = some (.val v) ∧ (v = 0 ∨ v = 1 ∨ v = 2) ∧
      v = (if "1|0".toList.getD 0 NUL = '1' then 1 else 0) +
        (if "1|0".toList.getD 2 NUL = '1' then 1 else 0)) :=
  ⟨by decide, by decide, by decide, by decide,
    biallelic_count [scenarioHeader, biallelicData] biallelicMatrix 0 0 biallelicData
      "1|0".toList (by decide) (by decide) (by decide) (by decide) (by decide)⟩

/-- C18: in every returned matrix, the cell of a genotype token `t` of at least three
characters is missing exactly when `t[0]` is `'.'` or `(t[0] - '0') + (t[2] - '0')`,
computed on signed `char` values, is negative, and is that sum otherwise; so a token
whose first and third characters are decimal digits never gives a missing cell, and
gives a value between 0 and 18. -/
theorem missing_iff (lines : List Str) (m : IntegerMatrix) (i j : Nat) (d t : Str)
    (h : readVcf lines = .ok m) (hd : (dataLines lines)[i]? = some d)
    (ht : (lineTokens d)[9 + j]? = some t) (_h3 : 3 ≤ t.length) :
    alleleSum t =
      (charVal (t.getD 0 NUL) - charVal '0') + (charVal (t.getD 2 NUL) - charVal '0') ∧
    (m.cell i j = some .na ↔ (t.getD 0 NUL = '.' ∨ alleleSum t < 0)) ∧
    (¬ (t.getD 0 NUL = '.' ∨ alleleSum t < 0) → m.cell i j = some (.val (alleleSum t))) ∧
    ((t.getD 0 NUL).isDigit = true → (t.getD 2 NUL).isDigit = true →
      m.cell i j = some (.val (alleleSum t)) ∧ 0 ≤ alleleSum t ∧ alleleSum t ≤ 18) := by
  have hcell := readVcf_cell_decoded lines m i j d t h hd ht
  have hval : ¬ (t.getD 0 NUL = '.' ∨ alleleSum t < 0) →
      m.cell i j = some (.val (alleleSum t)) := by
    intro hn
    have h1 : ¬ t.head? = some '.' := fun e => hn (Or.inl ((head?_eq_dot_iff t).1 e))
    have h2 : ¬ alleleSum t < 0 := fun e => hn (Or.inr e)
    rw [hcell, decodedCell, if_neg h1, if_neg h2]
  refine ⟨rfl, ?_, hval, ?_⟩
  · constructor
    · intro hna
      by_contra hn
      rw [hval hn] at hna
      exact absurd hna (by simp)
    · intro hc
      rw [hcell, decodedCell]
      by_cases h1 : t.head? = some '.'
      · rw [if_pos h1]
      · rw [if_neg h1]
        rcases hc with hc | hc
        · exact absurd ((head?_eq_dot_iff t).2 hc) h1
        · rw [if_pos hc]
  · intro d0 d2
    obtain ⟨a1, a2⟩ := isDigit_toNat _ d0
    obtain ⟨b1, b2⟩ := isDigit_toNat _ d2
    have hsum : alleleSum t =
        ((t.getD 0 NUL).toNat : Int) - 48 + (((t.getD 2 NUL).toNat : Int) - 48) := by
      simp only [alleleSum, charVal_zero]
      rw [charVal_of_lt _ (by omega), charVal_of_lt _ (by omega)]
    have hs1 : 0 ≤ alleleSum t := by rw [hsum]; omega
    have hs2 : alleleSum t ≤ 18 := by rw [hsum]; omega
    refine ⟨hval ?_, hs1, hs2⟩
    rintro (e | e)
    · rw [e] at a1
      exact absurd a1 (by decide)
    · omega

/-- C18 on the token `0/.` of `halfMissingInput`: the sum is -2 and the cell is missing. -/
theorem missing_iff_witness :
    readVcf halfMissingInput = .ok (singleCellMatrix .na) ∧
    (dataLines halfMissingInput)[0]? = some halfMissingData ∧
    (lineTokens halfMissingData)[9 + 0]? = some "0/.".toList ∧
    3 ≤ "0/.".toList.length ∧ alleleSum "0/.".toList = -2 ∧
    ((singleCellMatrix .na).cell 0 0 = some .na ↔
      ("0/.".toList.getD 0 NUL = '.' ∨ alleleSum "0/.".toList < 0)) :=
  ⟨by decide, by decide, by decide, by decide, by decide,
    (missing_iff halfMissingInput (singleCellMatrix .na) 0 0 halfMissingData "0/.".toList
      (by decide) (by decide) (by decide) (by decide)).2.1⟩

/-! ## Kinds of failure -/

theorem strAt_error (t : Str) (i : Nat) (e : Failure) (h : strAt t i = .error e) :
    e = .outOfBounds := by
  unfold strAt at h
  by_cases hi : i ≤ t.length
  · simp [hi] at h
  · simp only [hi, if_false, Except.error.injEq] at h
    exact h.symm

/-- C12 (as stated, refuted): after the first column-header line the list holds `S1`,
`S2`; a second line starting with a single `'#'` changes it to `S1`, `S2`, `S1`, `S2`,
and the returned matrix has four columns, not the two of the first header line. -/
theorem later_header_counterexample :
    classify scenarioHeader = .header ∧
    ((tokenizeLine (cstr scenarioHeader)).drop 9).length = 2 ∧
    readLoop State.init [scenarioHeader] =
      .ok ⟨["S1".toList, "S2".toList], [], [], 0⟩ ∧
    readLoop State.init doubleHeaderInput =
      .ok ⟨["S1".toList, "S2".toList, "S1".toList, "S2".toList], [], [], 0⟩ ∧
    readVcf doubleHeaderInput = .ok doubleHeaderMatrix ∧ doubleHeaderMatrix.ncol = 4 := by
  refine ⟨by decide, by decide, by decide, by decide, by decide, by decide⟩

/-- C12 (amended): a meta line or an accepted data line leaves the list of sample
identifiers as it is; every line starting with exactly one `'#'`, the first as well as
any later one, appends its tokens from position 9 on. So the column labels of a returned
matrix are those tokens of all column-header lines in order, the column count is their
total number, and it is the sample count of the first column-header line when no later
one has a token at position 9 or above. -/
theorem sample_list (st st' : State) (l : Str) (lines : List Str) (m : IntegerMatrix)
    (hs : step st l = .ok st') (hm : readVcf lines = .ok m) :
    (classify l ≠ .header → st'.sampleIDs = st.sampleIDs) ∧
    (classify l = .header → st'.sampleIDs = st.sampleIDs ++ (tokenizeLine (cstr l)).drop 9) ∧
    m.colnames = ((headerLines lines).map (fun h => (tokenizeLine (cstr h)).drop 9)).flatten ∧
    m.ncol = ((headerLines lines).map (fun h => ((tokenizeLine (cstr h)).drop 9).length)).sum ∧
    (∀ hdr more, headerLines lines = hdr :: more →
      (∀ h ∈ more, (tokenizeLine (cstr h)).drop 9 = []) →
      m.ncol = ((tokenizeLine (cstr hdr)).drop 9).length) := by
  obtain ⟨_, h2, _, h4, _, _⟩ := readVcf_ok lines m hm
  have hcols : m.ncol =
      ((headerLines lines).map (fun h => ((tokenizeLine (cstr h)).drop 9).length)).sum := by
    rw [h2, declaredSamples, List.length_flatten, List.map_map]
    rfl
  refine ⟨?_, ?_, ?_, hcols, ?_⟩
  · intro hc
    cases hcl : classify l with
    | meta =>
      rw [step_meta st l hcl] at hs
      rw [← Except.ok.inj hs]
    | header => exact absurd hcl hc
    | data =>
      obtain ⟨_, _, e⟩ := step_data_ok st st' l hcl hs
      rw [e]
  · intro hc
    rw [step_header st l hc] at hs
    rw [← Except.ok.inj hs]
    rfl
  · rw [h4]
    rfl
  · intro hdr more hh hmore
    rw [hcols, hh, List.map_cons, List.sum_cons]
    have : (more.map (fun h => ((tokenizeLine (cstr h)).drop 9).length)).sum = 0 := by
      apply List.sum_eq_zero
      intro x hx
      obtain ⟨h, hmem, rfl⟩ := List.mem_map.1 hx
      rw [hmore h hmem]
      rfl
    rw [this, Nat.add_zero]

/-- C12 on the scenario header read twice: the second header line appends `S1`, `S2`
again and the matrix has four columns. -/
theorem sample_list_witness :
    step ⟨["S1".toList, "S2".toList], [], [], 0⟩ scenarioHeader =
      .ok ⟨["S1".toList, "S2".toList, "S1".toList, "S2".toList], [], [], 0⟩ ∧
    readVcf doubleHeaderInput = .ok doubleHeaderMatrix ∧
    doubleHeaderMatrix.ncol = 4 ∧
    doubleHeaderMatrix.ncol =
      ((headerLines doubleHeaderInput).map
        (fun h => ((tokenizeLine (cstr h)).drop 9).length)).sum :=
  ⟨by decide, by decide, by decide,
    (sample_list ⟨["S1".toList, "S2".toList], [], [], 0⟩
      ⟨["S1".toList, "S2".toList, "S1".toList, "S2".toList], [], [], 0⟩
      scenarioHeader doubleHeaderInput doubleHeaderMatrix (by decide) (by decide)).2.2.2.1⟩

/-! ## Runs without out-of-bounds access -/

theorem decodable_of_genotypeOk (t : Str) (h : genotypeOk t = true) : decodable t = true := by
  simp only [genotypeOk, decodable, Bool.or_eq_true, beq_iff_eq, decide_eq_true_eq] at h ⊢
  rcases h with h | h
  · exact Or.inl h
  · exact Or.inr (by omega)

theorem decodeGenotype_of_decodable (t : Str) (h : decodable t = true) :
    ∃ g, decodeGenotype t = .ok g := by
  by_cases hd : t.getD 0 NUL = '.'
  · exact ⟨_, decodeGenotype_dot t hd⟩
  · have h2 : 2 ≤ t.length := by
      simp only [decodable, Bool.or_eq_true, beq_iff_eq, decide_eq_true_eq] at h
      rcases h with h | h
      · exact absurd ((head?_eq_dot_iff t).1 h) hd
      · exact h
    exact ⟨_, decodeGenotype_sum t hd h2⟩

/-- A data line with the right number of tokens, all decodable, is accepted. -/
theorem step_data_accept (st : State) (l : Str) (hc : classify l = .data)
    (hlen : (lineTokens l).length = 9 + st.sampleIDs.length)
    (hdec : ∀ t ∈ (lineTokens l).drop 9, decodable t = true) :
    ∃ st', step st l = .ok st' := by
  obtain ⟨gs, hgs⟩ := decodeAll_of_all _ (fun t ht => decodeGenotype_of_decodable t (hdec t ht))
  have hn : ¬ (st.sampleIDs.length + 9 ≠ (tokenizeLine (cstr l)).length) := by
    simp only [lineTokens] at hlen
    omega
  have hm : markerID (tokenizeLine (cstr l)) = .ok (variantLabel (lineTokens l)) :=
    markerID_eq _ (by simp only [lineTokens] at hlen; omega)
  simp only [lineTokens] at hgs
  refine ⟨{ st with markerIDs := st.markerIDs ++ [variantLabel (lineTokens l)],
                     genotypes := st.genotypes ++ gs,
                     nvar := st.nvar + 1 }, ?_⟩
  simp only [step, hc, hn, if_false, hm, hgs]

/-- With decodable genotype tokens a line is accepted or stops the read at line 62. -/
theorem step_safe (st : State) (l : Str)
    (hdec : classify l = .data → ∀ t ∈ (lineTokens l).drop 9, decodable t = true) :
    (∃ st', step st l = .ok st') ∨ step st l = .error (.stop mismatchMessage) := by
  cases hc : classify l with
  | meta => exact Or.inl ⟨_, step_meta st l hc⟩
  | header => exact Or.inl ⟨_, step_header st l hc⟩
  | data =>
    by_cases hlen : (lineTokens l).length = 9 + st.sampleIDs.length
    · exact Or.inl (step_data_accept st l hc hlen (hdec hc))
    · exact Or.inr (step_data_mismatch st l hc hlen)

theorem mem_dataLines (lines : List Str) (d : Str) :
    d ∈ dataLines lines ↔ d ∈ lines ∧ classify d = .data := by
  simp [dataLines]

theorem readLoop_safe (st : State) (lines : List Str)
    (hdec : ∀ d ∈ dataLines lines, ∀ t ∈ (lineTokens d).drop 9, decodable t = true) :
    (∃ st', readLoop st lines = .ok st') ∨
      readLoop st lines = .error (.stop mismatchMessage) := by
  induction lines generalizing st with
  | nil => exact Or.inl ⟨st, rfl⟩
  | cons l ls ih =>
    have hl : classify l = .data → ∀ t ∈ (lineTokens l).drop 9, decodable t = true :=
      fun hc => hdec l ((mem_dataLines _ _).2 ⟨List.mem_cons_self _ _, hc⟩)
    have hls : ∀ d ∈ dataLines ls, ∀ t ∈ (lineTokens d).drop 9, decodable t = true := by
      intro d hd
      have := (mem_dataLines _ _).1 hd
      exact hdec d ((mem_dataLines _ _).2 ⟨List.mem_cons_of_mem _ this.1, this.2⟩)
    rcases step_safe st l hl with ⟨st1, hs⟩ | hs
    · simp only [readLoop, hs]
      exact ih st1 hls
    · exact Or.inr (by simp only [readLoop, hs])

theorem headersFirst_cons (l : Str) (ls : List Str) (h : headersFirst (l :: ls) = true) :
    headersFirst ls = true ∧ (classify l = .data → headerLines ls = []) := by
  simp only [headersFirst, Bool.and_eq_true, Bool.or_eq_true, decide_eq_true_eq,
    List.isEmpty_iff] at h
  refine ⟨h.2, ?_⟩
  intro hc
  rcases h.1 with h1 | h1
  · exact absurd hc h1
  · exact h1

theorem declaredSamples_of_no_header (ls : List Str) (h : headerLines ls = []) :
    declaredSamples ls = [] := by
  simp [declaredSamples, h]

/-- With the header lines first, data lines of the announced token count and decodable
genotype tokens, the read loop runs to the end. -/
theorem readLoop_complete (st : State) (lines : List Str) (hf : headersFirst lines = true)
    (hc : ∀ d ∈ dataLines lines,
      (lineTokens d).length = 9 + (st.sampleIDs.length + (declaredSamples lines).length))
    (hdec : ∀ d ∈ dataLines lines, ∀ t ∈ (lineTokens d).drop 9, decodable t = true) :
    ∃ st', readLoop st lines = .ok st' := by
  induction lines generalizing st with
  | nil => exact ⟨st, rfl⟩
  | cons l ls ih =>
    obtain ⟨hf', hnh⟩ := headersFirst_cons l ls hf
    cases hcl : classify l with
    | meta =>
      simp only [readLoop, step_meta st l hcl]
      refine ih st hf' ?_ ?_
      · intro d hd
        have := hc d (by simpa [dataLines_cons, hcl] using hd)
        simpa [declaredSamples_cons, hcl] using this
      · intro d hd
        exact hdec d (by simpa [dataLines_cons, hcl] using hd)
    | header =>
      simp only [readLoop, step_header st l hcl]
      refine ih _ hf' ?_ ?_
      · intro d hd
        have := hc d (by simpa [dataLines_cons, hcl] using hd)
        simp only [declaredSamples_cons, hcl, if_true, List.length_append] at this
        simp only [List.length_append]
        omega
      · intro d hd
        exact hdec d (by simpa [dataLines_cons, hcl] using hd)
    | data =>
      have hds : declaredSamples ls = [] := declaredSamples_of_no_header ls (hnh hcl)
      have hmem : l ∈ dataLines (l :: ls) := by simp [dataLines_cons, hcl]
      have hlen := hc l hmem
      simp only [declaredSamples_cons, hcl, hds, List.length_nil, Nat.add_zero] at hlen
      obtain ⟨st1, hs⟩ := step_data_accept st l hcl (by simpa using hlen) (hdec l hmem)
      obtain ⟨_, _, e⟩ := step_data_ok st st1 l hcl hs
      simp only [readLoop, hs]
      refine ih st1 hf' ?_ ?_
      · intro d hd
        have := hc d (by simp [dataLines_cons, hcl, hd])
        simp only [declaredSamples_cons, hcl] at this
        rw [e]
        simpa using this
      · intro d hd
        exact hdec d (by simp [dataLines_cons, hcl, hd])

/-- With the header lines first, data lines of the announced token count and decodable
genotype tokens, `readVcf` returns a matrix. -/
theorem readVcf_success (lines : List Str) (hf : headersFirst lines = true)
    (hc : ∀ d ∈ dataLines lines, (lineTokens d).length = 9 + (declaredSamples lines).length)
    (hdec : ∀ d ∈ dataLines lines, ∀ t ∈ (lineTokens d).drop 9, decodable t = true) :
    ∃ m, readVcf lines = .ok m := by
  obtain ⟨st, hl⟩ := readLoop_complete State.init lines hf
    (by intro d hd; simpa [State.init] using hc d hd) hdec
  obtain ⟨i1, _⟩ := readLoop_ok State.init st lines hl
  simp only [State.init, List.nil_append] at i1
  exact readVcf_of_readLoop lines st hl (fun d hd => by rw [i1]; exact hc d hd)

/-- C13 (as stated, refuted): the data line of `twoCharInput` has the ten tokens that
the one-sample header requires; its genotype token `0/` does not start with `'.'` and has
two characters, and `readVcf` returns a matrix whose cell is missing. -/
theorem two_char_counterexample :
    classify twoCharData = .data ∧
    (lineTokens twoCharData).length = 9 + (declaredSamples [oneSampleHeader]).length ∧
    (lineTokens twoCharData)[9 + 0]? = some "0/".toList ∧
    "0/".toList.head? ≠ some '.' ∧ "0/".toList.length < 3 ∧
    readVcf twoCharInput = .ok (singleCellMatrix .na) := by
  refine ⟨by decide, by decide, by decide, by decide, by decide, by decide⟩

/-- C13 (amended): a genotype token of two characters that does not start with `'.'` is
not fatal. When the header lines come first, every data line has the announced number of
tokens and every genotype token starts with `'.'` or has at least two characters,
`readVcf` returns a matrix; the third character read for a two-character token is the
string terminator, so its cell is missing when `t[0]`, as a signed `char`, is below 96
(every digit, and every byte of 0x80 or more) and is the number `t[0] - 96` otherwise
(codes 96 to 127). -/
theorem two_char_token (lines : List Str) (hf : headersFirst lines = true)
    (hc : ∀ d ∈ dataLines lines, (lineTokens d).length = 9 + (declaredSamples lines).length)
    (hdec : ∀ d ∈ dataLines lines, ∀ t ∈ (lineTokens d).drop 9, decodable t = true) :
    ∃ m, readVcf lines = .ok m ∧
      ∀ (i j : Nat) (d t : Str), (dataLines lines)[i]? = some d →
        (lineTokens d)[9 + j]? = some t → t.length = 2 → t.getD 0 NUL ≠ '.' →
        m.cell i j = some (if charVal (t.getD 0 NUL) < 96 then .na
          else .val (charVal (t.getD 0 NUL) - 96)) ∧
        ((t.getD 0 NUL).isDigit = true → m.cell i j = some .na) ∧
        (128 ≤ (t.getD 0 NUL).toNat → (t.getD 0 NUL).toNat < 256 →
          m.cell i j = some .na) := by
  obtain ⟨m, hm⟩ := readVcf_success lines hf hc hdec
  refine ⟨m, hm, ?_⟩
  intro i j d t hd ht hlen hdot
  have h2 : t.getD 2 NUL = NUL := by
    rw [List.getD_eq_getElem?_getD, List.getElem?_eq_none (by omega)]
    rfl
  have hsum : alleleSum t = charVal (t.getD 0 NUL) - 96 := by
    simp only [alleleSum, h2, charVal_NUL, charVal_zero]
    omega
  have hh : ¬ t.head? = some '.' := fun e => hdot ((head?_eq_dot_iff t).1 e)
  have hcell : m.cell i j = some (if charVal (t.getD 0 NUL) < 96 then .na
      else .val (charVal (t.getD 0 NUL) - 96)) := by
    rw [readVcf_cell_decoded lines m i j d t hm hd ht, decodedCell, if_neg hh, hsum]
    by_cases hlt : charVal (t.getD 0 NUL) < 96
    · rw [if_pos hlt, if_pos (by omega)]
    · rw [if_neg hlt, if_neg (by omega)]
  refine ⟨hcell, ?_, ?_⟩
  · intro hdig
    obtain ⟨a1, a2⟩ := isDigit_toNat _ hdig
    have : charVal (t.getD 0 NUL) < 96 := by
      rw [charVal_of_lt _ (by omega)]
      omega
    rw [hcell, if_pos this]
  · intro h128 h256
    have : charVal (t.getD 0 NUL) < 96 := by
      unfold charVal
      omega
    rw [hcell, if_pos this]

/-- C13 on the token `0/` of `twoCharInput`: a matrix is returned and the cell is
missing. -/
theorem two_char_token_witness :
    headersFirst twoCharInput = true ∧
    (∀ d ∈ dataLines twoCharInput,
      (lineTokens d).length = 9 + (declaredSamples twoCharInput).length) ∧
    (∀ d ∈ dataLines twoCharInput, ∀ t ∈ (lineTokens d).drop 9, decodable t = true) ∧
    readVcf twoCharInput = .ok (singleCellMatrix .na) ∧
    ∃ m, readVcf twoCharInput = .ok m ∧
      ∀ (i j : Nat) (d t : Str), (dataLines twoCharInput)[i]? = some d →
        (lineTokens d)[9 + j]? = some t → t.length = 2 → t.getD 0 NUL ≠ '.' →
        m.cell i j = some (if charVal (t.getD 0 NUL) < 96 then .na
          else .val (charVal (t.getD 0 NUL) - 96)) ∧
        ((t.getD 0 NUL).isDigit = true → m.cell i j = some .na) ∧
        (128 ≤ (t.getD 0 NUL).toNat → (t.getD 0 NUL).toNat < 256 →
          m.cell i j = some .na) :=
  ⟨by decide, by decide, by decide, by decide,
    two_char_token twoCharInput (by decide) (by decide) (by decide)⟩

/-! ## The accumulator -/

theorem headersFirst_append_left (a b : List Str) (h : headersFirst (a ++ b) = true) :
    headersFirst a = true := by
  induction a with
  | nil => rfl
  | cons l ls ih =>
    obtain ⟨h1, h2⟩ := headersFirst_cons l (ls ++ b) h
    have hrest := ih h1
    simp only [headersFirst, Bool.and_eq_true, Bool.or_eq_true, decide_eq_true_eq,
      List.isEmpty_iff]
    refine ⟨?_, hrest⟩
    by_cases hc : classify l = .data
    · right
      have := h2 hc
      simp only [headerLines, List.filter_append, List.append_eq_nil] at this
      exact this.1
    · exact Or.inl hc

/-- With the header lines first, every accepted data line has pushed as many codes as
the final list has sample identifiers. -/
theorem readLoop_rows (st st' : State) (lines : List Str) (hf : headersFirst lines = true)
    (h : readLoop st lines = .ok st') :
    ∀ d ∈ dataLines lines, (lineCodes d).length = st'.sampleIDs.length := by
  induction lines generalizing st with
  | nil => simp [dataLines]
  | cons l ls ih =>
    obtain ⟨hf', hnh⟩ := headersFirst_cons l ls hf
    unfold readLoop at h
    cases hs : step st l with
    | error e => simp [hs] at h
    | ok st1 =>
      simp only [hs] at h
      intro d hd
      rw [dataLines_cons] at hd
      by_cases hcl : classify l = .data
      · rw [if_pos hcl] at hd
        rcases List.mem_cons.1 hd with rfl | hd
        · obtain ⟨k1, k2, e⟩ := step_data_ok st st1 d hcl hs
          obtain ⟨g1, _⟩ := decodeAll_ok _ _ k2
          obtain ⟨i1, _⟩ := readLoop_ok st1 st' ls h
          rw [i1, declaredSamples_of_no_header ls (hnh hcl), List.append_nil, e, g1,
            List.length_drop]
          simp only
          omega
        · exact ih st1 hf' h d hd
      · rw [if_neg hcl] at hd
        exact ih st1 hf' h d hd

theorem flatten_length_uniform (n : Nat) (rows : List (List Int))
    (h : ∀ row ∈ rows, row.length = n) : rows.flatten.length = rows.length * n := by
  induction rows with
  | nil => simp
  | cons row rows ih =>
    have h1 := h row (List.mem_cons_self _ _)
    have h2 := ih (fun r hr => h r (List.mem_cons_of_mem _ hr))
    have e : (rows.length + 1) * n = rows.length * n + n := by ring
    simp only [List.flatten_cons, List.length_append, List.length_cons, e]
    omega

/-- C16 (as stated, refuted): in the input made of `scenarioHeader` and `shortData` no
header line comes after a data line and the only genotype token `1/1` has three
characters, yet `readVcf` returns no matrix: the data line has ten tokens where eleven
are required, and the read stops at line 62. -/
theorem mismatch_stops_counterexample :
    headersFirst [scenarioHeader, shortData] = true ∧
    (∀ d ∈ dataLines [scenarioHeader, shortData],
      ∀ t ∈ (lineTokens d).drop 9, genotypeOk t = true) ∧
    (lineTokens shortData).drop 9 = ["1/1".toList] ∧
    readVcf [scenarioHeader, shortData] = .error (.stop mismatchMessage) := by
  refine ⟨by decide, by decide, by decide, by decide⟩

/-- C16 (amended): when no column-header line comes after a data line, after every
accepted prefix of the input the genotype buffer has length (data lines so far) times
(sample identifiers), and the label list and `nvar` equal the number of data lines so
far. If in addition every genotype token starts with `'.'` or has at least three
characters, no access of `readVcf` is out of bounds: `readVcf` returns a matrix, or stops
at the token-count check of line 62; it returns a matrix when every data line has nine
tokens plus one per declared sample. -/
theorem accumulator_invariant (lines : List Str) (hf : headersFirst lines = true) :
    (∀ (pre post : List Str) (st : State), lines = pre ++ post →
      readLoop State.init pre = .ok st →
      st.genotypes.length = (dataLines pre).length * st.sampleIDs.length ∧
      st.markerIDs.length = (dataLines pre).length ∧ st.nvar = (dataLines pre).length) ∧
    ((∀ d ∈ dataLines lines, ∀ t ∈ (lineTokens d).drop 9, genotypeOk t = true) →
      readVcf lines ≠ .error .outOfBounds ∧
      ((∃ m, readVcf lines = .ok m) ∨ readVcf lines = .error (.stop mismatchMessage)) ∧
      ((∀ d ∈ dataLines lines,
          (lineTokens d).length = 9 + (declaredSamples lines).length) →
        ∃ m, readVcf lines = .ok m)) := by
  refine ⟨?_, ?_⟩
  · intro pre post st hsplit hl
    have hfp : headersFirst pre = true := headersFirst_append_left pre post (hsplit ▸ hf)
    obtain ⟨_, i2, i3, i4, _⟩ := readLoop_ok State.init st pre hl
    simp only [State.init, List.nil_append, Nat.zero_add] at i2 i3 i4
    have hrows : ∀ row ∈ (dataLines pre).map lineCodes, row.length = st.sampleIDs.length := by
      intro row hrow
      obtain ⟨d, hd, rfl⟩ := List.mem_map.1 hrow
      exact readLoop_rows State.init st pre hfp hl d hd
    refine ⟨?_, by rw [i2, List.length_map], i3⟩
    rw [i4, flatten_length_uniform _ _ hrows, List.length_map]
  · intro hg
    have hdec : ∀ d ∈ dataLines lines, ∀ t ∈ (lineTokens d).drop 9, decodable t = true :=
      fun d hd t ht => decodable_of_genotypeOk t (hg d hd t ht)
    have hor : (∃ m, readVcf lines = .ok m) ∨
        readVcf lines = .error (.stop mismatchMessage) := by
      rcases readLoop_safe State.init lines hdec with ⟨st, hl⟩ | hl
      · left
        obtain ⟨_, _, _, _, i5⟩ := readLoop_ok State.init st lines hl
        refine readVcf_of_readLoop lines st hl ?_
        intro d hd
        rw [(i5 d hd).2.1, readLoop_rows State.init st lines hf hl d hd]
      · right
        simp only [readVcf, hl]
    refine ⟨?_, hor, fun hc => readVcf_success lines hf hc hdec⟩
    rcases hor with ⟨m, hm⟩ | hstop
    · rw [hm]
      simp
    · rw [hstop]
      simp

/-- C16 on the scenario of section 8: after header and data line the buffer holds
1 x 2 codes, and the matrix is returned. -/
theorem accumulator_invariant_witness :
    headersFirst scenarioInput = true ∧
    readLoop State.init scenarioInput =
      .ok ⟨["S1".toList, "S2".toList], ["20:100:A:T".toList], [1, -9], 1⟩ ∧
    readVcf scenarioInput = .ok scenarioMatrix ∧
    ((∀ d ∈ dataLines scenarioInput, ∀ t ∈ (lineTokens d).drop 9, genotypeOk t = true) →
      readVcf scenarioInput ≠ .error .outOfBounds ∧
      ((∃ m, readVcf scenarioInput = .ok m) ∨
        readVcf scenarioInput = .error (.stop mismatchMessage)) ∧
      ((∀ d ∈ dataLines scenarioInput,
          (lineTokens d).length = 9 + (declaredSamples scenarioInput).length) →
        ∃ m, readVcf scenarioInput = .ok m)) :=
  ⟨by decide, by decide, by decide, (accumulator_invariant scenarioInput (by decide)).2⟩

/-! ## Line terminators -/

/-- C15 (the code at a failing input): the scenario of section 8 is well-formed and gives
its 1x2 matrix; with every terminator `'\n'` replaced by `'\r'`, `'\n'` each line ends
with an additional empty token, the header declares a third sample with an empty name,
and the empty genotype token of the data line is read out of bounds. The header line
alone gives two columns with `'\n'` and three with `'\r'`, `'\n'`. -/
theorem crlf_changes_outcome :
    wellFormed 2 scenarioInput = true ∧
    readVcf scenarioInput = .ok scenarioMatrix ∧
    tokenizeLine (cstr (toCRLF scenarioData)) =
      ["20".toList, "100".toList, ".".toList, "A".toList, "T".toList, ".".toList,
        ".".toList, ".".toList, "GT".toList, "0/1".toList, "./.".toList, []] ∧
    readVcf (scenarioInput.map toCRLF) = .error .outOfBounds ∧
    readVcf [scenarioHeader] = .ok headerOnlyMatrix ∧
    readVcf ([scenarioHeader].map toCRLF) = .ok crlfHeaderMatrix := by
  refine ⟨by decide, by decide, by decide, by decide, by decide, by decide⟩

/-! ## Blank lines -/

end TinyVcf
